import Mathlib

/-!
Verification of the ZMK matrix-diagnoser webpage (`script.js`).

The development shallowly embeds the data model and the two code regions the
claims are about:

* `analyzeFailures` (script.js strings `analyzeFailures`, lines 1100-1382):
  the failure localizer.  JavaScript objects keyed by integers are modelled as
  association lists `List (Nat × String)`; the optional `gpios` / `direct` /
  `interrupt` properties are modelled as `Option` (JS truthiness on an object
  property is `Option.isSome`); the mutable `coveredIndices` set is threaded
  explicitly; floating-point ratio comparisons `count/total > 0.6` (resp.
  `> 0.8`) are modelled exactly as `5*count > 3*total` (resp. `5*count >
  4*total`), which agrees with IEEE double arithmetic for the key counts that
  occur here.

* the `diodeDirection` evolution of `ZMKParser.findAndParsePinConfig`
  (script.js lines 519-596) together with the constructor default
  (lines 295-304), modelled per file by the features that function reads.
-/

namespace ZaruBall

/-- One entry of `parsedData.matrixMap`: the logical matrix coordinates
`{r, c}` of a physical key (script.js, `findAndParseMatrixTransform`). -/
structure MatrixEntry where
  r : Nat
  c : Nat
deriving DecidableEq, Repr

/-- The per-shield record stored in `parsedData.pinMap[shield]`.  The parser
always seeds `row` and `col` with (possibly empty) objects, so they are plain
association lists; `gpios`, `direct` and `interrupt` are only created on
demand, so they are `Option`s (a present-but-empty object is `some []`).
`colOffset` / `rowOffset` default to `0` when absent (`... || 0` in the JS). -/
structure PinCfg where
  row : List (Nat × String)
  col : List (Nat × String)
  gpios : Option (List (Nat × String))
  direct : Option (List (Nat × String))
  interrupt : Option String
  colOffset : Nat
  rowOffset : Nat
deriving DecidableEq, Repr

/-- The part of `parsedData` that `analyzeFailures` reads: `pinMap` in object
insertion order, and `matrixMap` (sparse entries are `none`). -/
structure Topology where
  pinMap : List (String × PinCfg)
  matrixMap : List (Option MatrixEntry)
deriving DecidableEq, Repr

/-- A failure report pushed by `analyzeFailures`.  Fields appear in the order
of the JS object literals.  For `row`/`col` reports the pin is
`pMap.row[physR]` which may be `undefined`, hence `Option String`. -/
inductive Report where
  | interrupt (side : String) (pin : String) (indices : List Nat)
  | charlie (side : String) (index : Nat) (pin : String) (roleFail : String)
      (indices : List Nat)
  | directGnd (side : String) (indices : List Nat)
  | direct (side : String) (pin : String) (index : Nat) (indices : List Nat)
  | row (side : String) (row : Nat) (pin : Option String) (indices : List Nat)
  | col (side : String) (col : Nat) (pin : Option String) (indices : List Nat)
  | single (side : String) (r : Nat) (c : Nat) (index : Nat)
      (indices : List Nat)
deriving DecidableEq, Repr

/-- The `side` field common to every report variant. -/
def Report.side : Report → String
  | .interrupt s _ _ => s
  | .charlie s _ _ _ _ => s
  | .directGnd s _ => s
  | .direct s _ _ _ => s
  | .row s _ _ _ => s
  | .col s _ _ _ => s
  | .single s _ _ _ _ => s

/-- The `indices` field common to every report variant. -/
def Report.indices : Report → List Nat
  | .interrupt _ _ l => l
  | .charlie _ _ _ _ l => l
  | .directGnd _ l => l
  | .direct _ _ _ l => l
  | .row _ _ _ l => l
  | .col _ _ _ l => l
  | .single _ _ _ _ l => l

/-- Whether a report is a `single` report (the only kind whose emission does
not add to `coveredIndices`). -/
def Report.isSingle : Report → Bool
  | .single _ _ _ _ _ => true
  | _ => false

/-- Whether a report is a `charlie` report. -/
def Report.isCharlie : Report → Bool
  | .charlie _ _ _ _ _ => true
  | _ => false

/-- Whether a report comes from the direct-GPIO pass (`direct` or
`direct_gnd`). -/
def Report.isDirectKind : Report → Bool
  | .direct _ _ _ _ => true
  | .directGnd _ _ => true
  | _ => false

/-- Whether a report comes from the standard-matrix pass (`row` or `col`). -/
def Report.isStandardKind : Report → Bool
  | .row _ _ _ _ => true
  | .col _ _ _ _ => true
  | _ => false

/-- Whether a report is a `single` report for key index `idx`. -/
def isSingleFor (idx : Nat) : Report → Bool
  | .single _ _ _ i _ => i == idx
  | _ => false

/-- The shield-validity test of `analyzeFailures` step 1: at least one of the
four pin lists is non-empty (`Object.keys(p.X).length > 0`). -/
def validCfg (p : PinCfg) : Bool :=
  !p.row.isEmpty || !p.col.isEmpty ||
    (match p.gpios with | some g => !g.isEmpty | none => false) ||
    (match p.direct with | some d => !d.isEmpty | none => false)

/-- `validShields` of `analyzeFailures`, keeping each shield's record
alongside its name (the JS keeps the names and looks the records up). -/
def validShields (t : Topology) : List (String × PinCfg) :=
  t.pinMap.filter (fun sp => validCfg sp.2)

/-- Result of `getSideAndPhysCoords`. -/
structure SideCoords where
  side : String
  physC : Nat
  physR : Nat
deriving DecidableEq, Repr

/-- The `validShields.forEach` accumulator loop of `getSideAndPhysCoords`:
the state is `(bestShield, maxMatchScore, physC, physR)` with
`maxMatchScore : Int` initialised to `-1`.  A shield qualifies when both of
its offsets are `≤` the key's logical coordinates; it replaces the state when
its offset sum strictly exceeds the current score. -/
def gspcAux (m : MatrixEntry) :
    List (String × PinCfg) → String × Int × Nat × Nat → String × Int × Nat × Nat
  | [], acc => acc
  | sp :: rest, acc =>
    let offC := sp.2.colOffset
    let offR := sp.2.rowOffset
    let acc' :=
      if offC ≤ m.c ∧ offR ≤ m.r then
        if (offC + offR : Int) > acc.2.1 then
          (sp.1, (offC + offR : Int), m.c - offC, m.r - offR)
        else acc
      else acc
    gspcAux m rest acc'

/-- `getSideAndPhysCoords` of `analyzeFailures` on a present matrix entry
(every call site guards `if (!m) return`, so the null branch of the JS is
unreachable and not modelled).  `vs` is non-empty at every call site because
`analyzeFailures` returns early on an empty `validShields`; the `"common"`
default mirrors the JS fallback string. -/
def getSideAndPhysCoords (vs : List (String × PinCfg)) (m : MatrixEntry) :
    SideCoords :=
  let a := gspcAux m vs (((vs.head?).map Prod.fst).getD "common", -1, m.c, m.r)
  ⟨a.1, a.2.2.1, a.2.2.2⟩

/-- A shield record qualifies for a matrix entry when both offsets are within
range (`m.c >= offsetC && m.r >= offsetR`). -/
def qualifies (p : PinCfg) (m : MatrixEntry) : Prop :=
  p.colOffset ≤ m.c ∧ p.rowOffset ≤ m.r

instance (p : PinCfg) (m : MatrixEntry) : Decidable (qualifies p m) := by
  unfold qualifies; infer_instance

/-- Array access `parsedData.matrixMap[idx]` (`undefined` out of range). -/
def entryAt (mm : List (Option MatrixEntry)) (i : Nat) : Option MatrixEntry :=
  mm.getD i none

/-- The indices collected by the `matrixMap.forEach` loops that keep every key
whose resolved side is `side` (interrupt logic `sideIndices`, ascending index
order as in the JS `forEach`). -/
def sideKeys (mm : List (Option MatrixEntry)) (vs : List (String × PinCfg))
    (side : String) : List Nat :=
  (List.range mm.length).filter fun i =>
    match entryAt mm i with
    | some m => (getSideAndPhysCoords vs m).side == side
    | none => false

/-- `counts[side].rows[r]` of step 2: how many keys of the whole matrix
resolve to `side` with local physical row `r`.  Also `charlieTotals[side].in`
(same accumulation). -/
def rowTotal (mm : List (Option MatrixEntry)) (vs : List (String × PinCfg))
    (side : String) (r : Nat) : Nat :=
  mm.countP fun om =>
    match om with
    | some m =>
      let p := getSideAndPhysCoords vs m
      p.side == side && p.physR == r
    | none => false

/-- `counts[side].cols[c]` of step 2; also `charlieTotals[side].out`. -/
def colTotal (mm : List (Option MatrixEntry)) (vs : List (String × PinCfg))
    (side : String) (c : Nat) : Nat :=
  mm.countP fun om =>
    match om with
    | some m =>
      let p := getSideAndPhysCoords vs m
      p.side == side && p.physC == c
    | none => false

/-- `groups[side].rows[r]` of step 3: the selected indices resolving to
`side` with local physical row `r`, in selection order. -/
def rowGroup (mm : List (Option MatrixEntry)) (vs : List (String × PinCfg))
    (sel : List Nat) (side : String) (r : Nat) : List Nat :=
  sel.filter fun idx =>
    match entryAt mm idx with
    | some m =>
      let p := getSideAndPhysCoords vs m
      p.side == side && p.physR == r
    | none => false

/-- `groups[side].cols[c]` of step 3; also `charlieCounts[side].out`. -/
def colGroup (mm : List (Option MatrixEntry)) (vs : List (String × PinCfg))
    (sel : List Nat) (side : String) (c : Nat) : List Nat :=
  sel.filter fun idx =>
    match entryAt mm idx with
    | some m =>
      let p := getSideAndPhysCoords vs m
      p.side == side && p.physC == c
    | none => false

/-- The local physical rows of the keys resolving to `side`, one entry per
key (the multiset behind `charlieTotals[side].in` / `counts[side].rows`). -/
def physRsOf (mm : List (Option MatrixEntry)) (vs : List (String × PinCfg))
    (side : String) : List Nat :=
  mm.filterMap fun om =>
    match om with
    | some m =>
      let p := getSideAndPhysCoords vs m
      if p.side == side then some p.physR else none
    | none => none

/-- The local physical columns of the keys resolving to `side`. -/
def physCsOf (mm : List (Option MatrixEntry)) (vs : List (String × PinCfg))
    (side : String) : List Nat :=
  mm.filterMap fun om =>
    match om with
    | some m =>
      let p := getSideAndPhysCoords vs m
      if p.side == side then some p.physC else none
    | none => none

/-- The local physical rows of the selected keys resolving to `side`
(the keys of `groups[side].rows`, before deduplication). -/
def selPhysRsOf (mm : List (Option MatrixEntry)) (vs : List (String × PinCfg))
    (sel : List Nat) (side : String) : List Nat :=
  sel.filterMap fun idx =>
    match entryAt mm idx with
    | some m =>
      let p := getSideAndPhysCoords vs m
      if p.side == side then some p.physR else none
    | none => none

/-- The local physical columns of the selected keys resolving to `side`. -/
def selPhysCsOf (mm : List (Option MatrixEntry)) (vs : List (String × PinCfg))
    (sel : List Nat) (side : String) : List Nat :=
  sel.filterMap fun idx =>
    match entryAt mm idx with
    | some m =>
      let p := getSideAndPhysCoords vs m
      if p.side == side then some p.physC else none
    | none => none

/-- JS `for (const rStr in groups[side].rows)`: the distinct integer keys of
the object, enumerated in ascending numeric order (the ECMAScript order for
integer-indexed properties). -/
def objKeys (l : List Nat) : List Nat :=
  l.dedup.insertionSort (· ≤ ·)

/-- The failing/total threshold `count/total > 0.6` of the row/column and
charlieplex checks, as exact arithmetic. -/
def ratioHigh (count total : Nat) : Prop :=
  5 * count > 3 * total

instance (count total : Nat) : Decidable (ratioHigh count total) := by
  unfold ratioHigh; infer_instance

/-- The whole-side threshold `count/total > 0.8` of the interrupt and
direct-ground checks, as exact arithmetic. -/
def ratioVeryHigh (count total : Nat) : Prop :=
  5 * count > 4 * total

instance (count total : Nat) : Decidable (ratioVeryHigh count total) := by
  unfold ratioVeryHigh; infer_instance

/-- `selectedOnSide` of the interrupt logic: how many selected keys resolve
to `side`. -/
def selOnSide (mm : List (Option MatrixEntry)) (vs : List (String × PinCfg))
    (sel : List Nat) (side : String) : Nat :=
  (sel.filter fun idx =>
    match entryAt mm idx with
    | some m => (getSideAndPhysCoords vs m).side == side
    | none => false).length

/-- The interrupt logic of step 4: with a declared interrupt pin, if the side
has more than 5 keys and more than 80% of them are selected, emit one
`interrupt` report listing every key of the side. -/
def interruptReports (mm : List (Option MatrixEntry))
    (vs : List (String × PinCfg)) (sel : List Nat) (side : String)
    (cfg : PinCfg) : List Report :=
  match cfg.interrupt with
  | none => []
  | some ip =>
    let sideIdxs := sideKeys mm vs side
    if sideIdxs.length > 5 ∧ ratioVeryHigh (selOnSide mm vs sel side) sideIdxs.length then
      [.interrupt side ip sideIdxs]
    else []

/-- Row-role failing condition of the charlieplex analysis:
`inTotal > 0 && inCount/inTotal > 0.6`. -/
def charlieInFail (mm : List (Option MatrixEntry))
    (vs : List (String × PinCfg)) (sel : List Nat) (side : String)
    (pIdx : Nat) : Prop :=
  0 < rowTotal mm vs side pIdx ∧
    ratioHigh (rowGroup mm vs sel side pIdx).length (rowTotal mm vs side pIdx)

/-- Column-role failing condition of the charlieplex analysis. -/
def charlieOutFail (mm : List (Option MatrixEntry))
    (vs : List (String × PinCfg)) (sel : List Nat) (side : String)
    (pIdx : Nat) : Prop :=
  0 < colTotal mm vs side pIdx ∧
    ratioHigh (colGroup mm vs sel side pIdx).length (colTotal mm vs side pIdx)

instance (mm vs sel side pIdx) :
    Decidable (charlieInFail mm vs sel side pIdx) := by
  unfold charlieInFail; infer_instance

instance (mm vs sel side pIdx) :
    Decidable (charlieOutFail mm vs sel side pIdx) := by
  unfold charlieOutFail; infer_instance

/-- The `roleFail` string: `'both'` by default, `'in'` when only the row-role
is flagged, `'out'` when only the column-role is flagged. -/
def roleOf (inFail outFail : Bool) : String :=
  if inFail && !outFail then "in"
  else if !inFail && outFail then "out"
  else "both"

/-- The `indices` collection of the charlieplex report: every key of the side
using ordinal `pIdx` in the flagged role(s), ascending index order.  The JS
checks `roleFail === 'in' / 'out' / 'both'`; `roleFail` is always one of the
three strings, so the `'both'` test is the final case here. -/
def charlieIndicesFor (mm : List (Option MatrixEntry))
    (vs : List (String × PinCfg)) (side : String) (pIdx : Nat)
    (roleFail : String) : List Nat :=
  (List.range mm.length).filter fun k =>
    match entryAt mm k with
    | some m =>
      let p := getSideAndPhysCoords vs m
      p.side == side &&
        (if roleFail == "in" then p.physR == pIdx
         else if roleFail == "out" then p.physC == pIdx
         else p.physR == pIdx || p.physC == pIdx)
    | none => false

/-- The `allIndices` set of the charlieplex analysis: keys of
`charlieTotals[side].in` (ascending), then the keys of
`charlieTotals[side].out` not already present (JS `Set` insertion order). -/
def charlieOrdinals (mm : List (Option MatrixEntry))
    (vs : List (String × PinCfg)) (side : String) : List Nat :=
  let inKeys := objKeys (physRsOf mm vs side)
  let outKeys := objKeys (physCsOf mm vs side)
  inKeys ++ outKeys.filter (fun x => !(inKeys.contains x))

/-- The `roleFail` value computed for one ordinal pin. -/
def charlieRole (mm : List (Option MatrixEntry))
    (vs : List (String × PinCfg)) (sel : List Nat) (side : String)
    (pIdx : Nat) : String :=
  roleOf (decide (charlieInFail mm vs sel side pIdx))
    (decide (charlieOutFail mm vs sel side pIdx))

/-- The `involvedSelected` value of the charlieplex analysis: the failing
keys using ordinal `pIdx` in the flagged role(s). -/
def charlieInvolved (mm : List (Option MatrixEntry))
    (vs : List (String × PinCfg)) (sel : List Nat) (side : String)
    (pIdx : Nat) : List Nat :=
  (charlieIndicesFor mm vs side pIdx (charlieRole mm vs sel side pIdx)).filter
    (fun k => sel.contains k)

/-- The report produced for one charlieplex ordinal pin, when flagged. -/
def charlieReportFor (mm : List (Option MatrixEntry))
    (vs : List (String × PinCfg)) (sel : List Nat) (side : String)
    (gpios : List (Nat × String)) (pIdx : Nat) : Option Report :=
  if charlieInFail mm vs sel side pIdx ∨ charlieOutFail mm vs sel side pIdx then
    some (.charlie side pIdx ((List.lookup pIdx gpios).getD "Unknown")
      (charlieRole mm vs sel side pIdx) (charlieInvolved mm vs sel side pIdx))
  else none

/-- The charlieplex analysis of one shield. -/
def charlieReports (mm : List (Option MatrixEntry))
    (vs : List (String × PinCfg)) (sel : List Nat) (side : String)
    (gpios : List (Nat × String)) : List Report :=
  (charlieOrdinals mm vs side).filterMap
    (charlieReportFor mm vs sel side gpios)

/-- `directIndices` of the direct-GPIO analysis: the keys of the side whose
local physical column owns a direct pin (`pMap.direct[pos.physC] !==
undefined`), ascending index order. -/
def directKeyIdxs (mm : List (Option MatrixEntry))
    (vs : List (String × PinCfg)) (side : String)
    (d : List (Nat × String)) : List Nat :=
  (List.range mm.length).filter fun i =>
    match entryAt mm i with
    | some m =>
      let p := getSideAndPhysCoords vs m
      p.side == side && (List.lookup p.physC d).isSome
    | none => false

/-- The direct-GPIO analysis of one shield: a single `direct_gnd` report over
all direct keys when there are more than 2 of them and more than 80% are
selected; otherwise one `direct` report per selected direct key.  (Members of
`directIndices` always have a matrix entry; the `none` branch mirrors the JS
null-default of `getSideAndPhysCoords`, which would yield `physC = 0`.) -/
def directReports (mm : List (Option MatrixEntry))
    (vs : List (String × PinCfg)) (sel : List Nat) (side : String)
    (d : List (Nat × String)) : List Report :=
  let directIdxs := directKeyIdxs mm vs side d
  let selectedDirect := directIdxs.filter (fun i => sel.contains i)
  if directIdxs.length > 2 ∧
      ratioVeryHigh selectedDirect.length directIdxs.length then
    [.directGnd side directIdxs]
  else
    selectedDirect.map fun idx =>
      match entryAt mm idx with
      | some m =>
        let p := getSideAndPhysCoords vs m
        .direct side ((List.lookup p.physC d).getD "Unknown") idx [idx]
      | none => .direct side ((List.lookup 0 d).getD "Unknown") idx [idx]

/-- The rows loop of the standard-matrix analysis: for each physical row with
a selected key, emit a `row` report when `total > 0 && count/total > 0.6`. -/
def rowReports (mm : List (Option MatrixEntry))
    (vs : List (String × PinCfg)) (sel : List Nat) (side : String)
    (cfg : PinCfg) : List Report :=
  (objKeys (selPhysRsOf mm vs sel side)).filterMap fun r =>
    let grp := rowGroup mm vs sel side r
    let total := rowTotal mm vs side r
    if 0 < total ∧ ratioHigh grp.length total then
      some (.row side r (List.lookup r cfg.row) grp)
    else none

/-- The columns loop of the standard-matrix analysis. -/
def colReports (mm : List (Option MatrixEntry))
    (vs : List (String × PinCfg)) (sel : List Nat) (side : String)
    (cfg : PinCfg) : List Report :=
  (objKeys (selPhysCsOf mm vs sel side)).filterMap fun c =>
    let grp := colGroup mm vs sel side c
    let total := colTotal mm vs side c
    if 0 < total ∧ ratioHigh grp.length total then
      some (.col side c (List.lookup c cfg.col) grp)
    else none

/-- The standard-matrix analysis of one shield: rows, then columns. -/
def standardReports (mm : List (Option MatrixEntry))
    (vs : List (String × PinCfg)) (sel : List Nat) (side : String)
    (cfg : PinCfg) : List Report :=
  rowReports mm vs sel side cfg ++ colReports mm vs sel side cfg

/-- The wiring-mode dispatch of step 4:
`if (pMap.gpios) ... else if (pMap.direct) ... else ...` (JS truthiness of an
object property, i.e. presence). -/
def wiringReports (mm : List (Option MatrixEntry))
    (vs : List (String × PinCfg)) (sel : List Nat) (side : String)
    (cfg : PinCfg) : List Report :=
  match cfg.gpios with
  | some g => charlieReports mm vs sel side g
  | none =>
    match cfg.direct with
    | some d => directReports mm vs sel side d
    | none => standardReports mm vs sel side cfg

/-- The trailing single-key loop of step 4: every selected key not yet in
`coveredIndices` whose resolved side is the current one becomes a `single`
report tagged with its absolute logical coordinates. -/
def singleReports (mm : List (Option MatrixEntry))
    (vs : List (String × PinCfg)) (sel : List Nat) (covered : List Nat)
    (side : String) : List Report :=
  sel.filterMap fun idx =>
    if covered.contains idx then none
    else
      match entryAt mm idx with
      | some m =>
        if (getSideAndPhysCoords vs m).side == side then
          some (.single side m.r m.c idx [idx])
        else none
      | none => none

/-- `coveredIndices.add` for the indices of freshly emitted reports: every
report kind adds its `indices`, except `single` reports which add nothing.
(The JS `Set` is modelled as a list queried only through membership.) -/
def coveredAdd (covered : List Nat) (reps : List Report) : List Nat :=
  covered ++ (reps.filter (fun r => !r.isSingle)).flatMap Report.indices

/-- One iteration of the `validShields.forEach` of step 4: interrupt check,
wiring-mode pass, then leftover singles, threading `coveredIndices`.  All
`coveredIndices.add` calls of the iteration happen before the single-key loop
reads the set, and nothing else of the iteration reads it. -/
def shieldPass (mm : List (Option MatrixEntry))
    (vs : List (String × PinCfg)) (sel : List Nat) (covered : List Nat)
    (side : String) (cfg : PinCfg) : List Report × List Nat :=
  let r1 := interruptReports mm vs sel side cfg
  let cov1 := coveredAdd covered r1
  let r2 := wiringReports mm vs sel side cfg
  let cov2 := coveredAdd cov1 r2
  let r3 := singleReports mm vs sel cov2 side
  (r1 ++ r2 ++ r3, cov2)

/-- The whole step-4 loop over `validShields`, accumulating the report list
and the covered set. -/
def runShields (mm : List (Option MatrixEntry))
    (vs : List (String × PinCfg)) (sel : List Nat) :
    List (String × PinCfg) → List Nat → List Report × List Nat
  | [], covered => ([], covered)
  | sp :: rest, covered =>
    let b := shieldPass mm vs sel covered sp.1 sp.2
    let r := runShields mm vs sel rest b.2
    (b.1 ++ r.1, r.2)

/-- `analyzeFailures`: empty report list when no shield is valid, otherwise
the step-4 loop starting from an empty covered set. -/
def analyzeFailures (t : Topology) (sel : List Nat) : List Report :=
  let vs := validShields t
  if vs.isEmpty then []
  else (runShields t.matrixMap vs sel vs []).1

/-- The final contents of `coveredIndices` after `analyzeFailures`. -/
def analyzeCovered (t : Topology) (sel : List Nat) : List Nat :=
  let vs := validShields t
  if vs.isEmpty then []
  else (runShields t.matrixMap vs sel vs []).2

/-- A sequence of localizer calls against one topology, the caller mutating
the failing set between calls (`state.selectedIndices` is caller-owned). -/
def localizerSession (t : Topology) (sels : List (List Nat)) :
    List (List Report) :=
  sels.map (analyzeFailures t)

/-! ### The diode-direction logic of `ZMKParser.findAndParsePinConfig` -/

/-- The features of one normalized configuration file that determine the
`diodeDirection` updates of `ZMKParser.findAndParsePinConfig`:
`diodeDecl` is the first `diode-direction = "..."` match in the file;
`skipWiring` is the `continue` taken when the file maps to no shield (side
is `common` and the shield list is empty), which skips the wiring blocks but
not the declaration; `charlieWiring` holds when charlieplex mode is
recognized and the extracted `gpios` list is non-empty (the condition
guarding `diodeDirection = 'col2row'`); `directWiring` holds when direct
mode is recognized and the extracted `input-gpios` list is non-empty (the
condition guarding `diodeDirection = 'row2col'`). -/
structure PinFile where
  diodeDecl : Option String
  skipWiring : Bool
  charlieWiring : Bool
  directWiring : Bool
deriving DecidableEq, Repr

/-- The `diodeDirection` updates made while processing one file, in source
order: the declaration is recorded first, then (unless the file is skipped)
recognized charlieplex wiring forces `col2row`, then recognized direct
wiring forces `row2col`. -/
def stepDiode (d : String) (f : PinFile) : String :=
  let d1 := f.diodeDecl.getD d
  if f.skipWiring then d1
  else
    let d2 := if f.charlieWiring then "col2row" else d1
    if f.directWiring then "row2col" else d2

/-- The final `result.diodeDirection` after `findAndParsePinConfig` runs
over the files in processing order, starting from the constructor default
`col2row`. -/
def diodeDirectionAfter (files : List PinFile) : String :=
  files.foldl stepDiode "col2row"

/-! ### Concrete example topologies used by the witnesses -/

/-- Shield record of the C4 example: five direct-wired keys. -/
def exC4cfg : PinCfg :=
  ⟨[], [], none, some [(0, "P0"), (1, "P1"), (2, "P2"), (3, "P3"), (4, "P4")],
    none, 0, 0⟩

/-- Topology of the C4 example. -/
def exC4t : Topology :=
  ⟨[("d", exC4cfg)],
    [some ⟨0, 0⟩, some ⟨0, 1⟩, some ⟨0, 2⟩, some ⟨0, 3⟩, some ⟨0, 4⟩]⟩

/-- Shield record of the C5 example: a 1-by-6 standard matrix with a
declared interrupt pin. -/
def exC5cfg : PinCfg :=
  ⟨[(0, "R0")],
    [(0, "C0"), (1, "C1"), (2, "C2"), (3, "C3"), (4, "C4"), (5, "C5")],
    none, none, some "INT", 0, 0⟩

/-- Topology of the C5 example. -/
def exC5t : Topology :=
  ⟨[("i", exC5cfg)],
    [some ⟨0, 0⟩, some ⟨0, 1⟩, some ⟨0, 2⟩, some ⟨0, 3⟩, some ⟨0, 4⟩,
      some ⟨0, 5⟩]⟩

/-- Shield record of the C7 example: a 2-by-2 standard matrix. -/
def exC7cfg : PinCfg :=
  ⟨[(0, "R0"), (1, "R1")], [(0, "C0"), (1, "C1")], none, none, none, 0, 0⟩

/-- Topology of the C7 example. -/
def exC7t : Topology :=
  ⟨[("s7", exC7cfg)],
    [some ⟨0, 0⟩, some ⟨0, 1⟩, some ⟨1, 0⟩, some ⟨1, 1⟩]⟩

/-- Shield record of the C9 counterexample: a present-but-empty `gpios`
object next to a non-empty `direct` list (representable in the pin map,
where JS truthiness tests presence, not non-emptiness). -/
def exC9cfg : PinCfg :=
  ⟨[], [], some [], some [(0, "P0"), (1, "P1"), (2, "P2")], none, 0, 0⟩

/-- Topology of the C9 counterexample. -/
def exC9t : Topology :=
  ⟨[("x", exC9cfg)], [some ⟨0, 0⟩, some ⟨0, 1⟩, some ⟨0, 2⟩]⟩

/-- Shield record of the C10 example: every pin list empty, though other
properties (offsets, interrupt) are present. -/
def exC10cfg : PinCfg := ⟨[], [], none, none, some "INT", 3, 2⟩

/-- Topology of the C10 example. -/
def exC10t : Topology := ⟨[("z", exC10cfg)], [some ⟨0, 0⟩, some ⟨0, 1⟩]⟩

/-- Left half of the C1 example split: a full-range shield. -/
def exC1L : PinCfg := ⟨[(0, "RL0")], [(0, "CL0")], none, none, none, 0, 0⟩

/-- Right half of the C1 example split: `col-offset = 6`. -/
def exC1R : PinCfg := ⟨[(0, "RR0")], [(0, "CR0")], none, none, none, 6, 0⟩

/-- Topology of the C1 example. -/
def exC1t : Topology := ⟨[("L", exC1L), ("R", exC1R)], [some ⟨2, 8⟩]⟩

/-- Shield record of the C3 example: a charlieplexed shield with four
ordinal pins. -/
def exC3cfg : PinCfg :=
  ⟨[], [], some [(0, "G0"), (1, "G1"), (2, "G2"), (3, "G3")], none, none, 0, 0⟩

/-- Topology of the C3 example: ordinal 0 is used as row by keys 0,1,2 and
as column by keys 3,4. -/
def exC3t : Topology :=
  ⟨[("c", exC3cfg)],
    [some ⟨0, 1⟩, some ⟨0, 2⟩, some ⟨0, 3⟩, some ⟨1, 0⟩, some ⟨2, 0⟩]⟩

/-- Shield record for the C2 example: a 2-row by 4-column standard matrix. -/
def exC2cfg : PinCfg :=
  ⟨[(0, "R0"), (1, "R1")], [(0, "C0"), (1, "C1"), (2, "C2"), (3, "C3")],
    none, none, none, 0, 0⟩

/-- Topology of the C2 example: keys indexed `r*4+c`. -/
def exC2t : Topology :=
  ⟨[("s", exC2cfg)],
    [some ⟨0, 0⟩, some ⟨0, 1⟩, some ⟨0, 2⟩, some ⟨0, 3⟩,
      some ⟨1, 0⟩, some ⟨1, 1⟩, some ⟨1, 2⟩, some ⟨1, 3⟩]⟩

/-! ### Properties of the owning-shield resolution (`getSideAndPhysCoords`) -/

theorem gspcAux_score_mono (m : MatrixEntry) :
    ∀ (l : List (String × PinCfg)) (a : String × Int × Nat × Nat),
      a.2.1 ≤ (gspcAux m l a).2.1 := by
  intro l
  induction l with
  | nil => intro a; simp [gspcAux]
  | cons sp rest ih =>
    intro a
    by_cases hq : sp.2.colOffset ≤ m.c ∧ sp.2.rowOffset ≤ m.r
    · by_cases hs : (sp.2.colOffset + sp.2.rowOffset : Int) > a.2.1
      · calc a.2.1 ≤ (sp.2.colOffset + sp.2.rowOffset : Int) := le_of_lt hs
          _ ≤ _ := by
            simpa [gspcAux, hq, hs] using
              ih (sp.1, (sp.2.colOffset + sp.2.rowOffset : Int),
                m.c - sp.2.colOffset, m.r - sp.2.rowOffset)
      · simpa [gspcAux, hq, hs] using ih a
    · simpa [gspcAux, hq] using ih a

theorem gspcAux_bound (m : MatrixEntry) :
    ∀ (l : List (String × PinCfg)) (a : String × Int × Nat × Nat),
      ∀ sp ∈ l, qualifies sp.2 m →
        (sp.2.colOffset + sp.2.rowOffset : Int) ≤ (gspcAux m l a).2.1 := by
  intro l
  induction l with
  | nil => intro a sp h; simp at h
  | cons hd rest ih =>
    intro a sp hmem hq
    rcases List.mem_cons.mp hmem with hsp | hsp
    · subst hsp
      have hq' : sp.2.colOffset ≤ m.c ∧ sp.2.rowOffset ≤ m.r := hq
      by_cases hs : (sp.2.colOffset + sp.2.rowOffset : Int) > a.2.1
      · have := gspcAux_score_mono m rest
          (sp.1, (sp.2.colOffset + sp.2.rowOffset : Int),
            m.c - sp.2.colOffset, m.r - sp.2.rowOffset)
        simpa [gspcAux, hq', hs] using this
      · have hle : (sp.2.colOffset + sp.2.rowOffset : Int) ≤ a.2.1 :=
          le_of_not_lt hs
        have := gspcAux_score_mono m rest a
        calc (sp.2.colOffset + sp.2.rowOffset : Int) ≤ a.2.1 := hle
          _ ≤ _ := by simpa [gspcAux, hq', hs] using this
    · by_cases hq' : hd.2.colOffset ≤ m.c ∧ hd.2.rowOffset ≤ m.r
      · by_cases hs : (hd.2.colOffset + hd.2.rowOffset : Int) > a.2.1
        · simpa [gspcAux, hq', hs] using
            ih (hd.1, (hd.2.colOffset + hd.2.rowOffset : Int),
              m.c - hd.2.colOffset, m.r - hd.2.rowOffset) sp hsp hq
        · simpa [gspcAux, hq', hs] using ih a sp hsp hq
      · simpa [gspcAux, hq'] using ih a sp hsp hq

theorem gspcAux_good (m : MatrixEntry) :
    ∀ (l : List (String × PinCfg)) (a : String × Int × Nat × Nat),
      gspcAux m l a = a ∨
        ∃ cfg, ((gspcAux m l a).1, cfg) ∈ l ∧ qualifies cfg m ∧
          (gspcAux m l a).2.1 = (cfg.colOffset + cfg.rowOffset : Int) ∧
          (gspcAux m l a).2.2.1 = m.c - cfg.colOffset ∧
          (gspcAux m l a).2.2.2 = m.r - cfg.rowOffset := by
  intro l
  induction l with
  | nil => intro a; left; simp [gspcAux]
  | cons hd rest ih =>
    intro a
    by_cases hq : hd.2.colOffset ≤ m.c ∧ hd.2.rowOffset ≤ m.r
    · by_cases hs : (hd.2.colOffset + hd.2.rowOffset : Int) > a.2.1
      · set a' : String × Int × Nat × Nat :=
          (hd.1, (hd.2.colOffset + hd.2.rowOffset : Int),
            m.c - hd.2.colOffset, m.r - hd.2.rowOffset) with ha'
        have hred : gspcAux m (hd :: rest) a = gspcAux m rest a' := by
          simp [gspcAux, hq, hs, ha']
        rcases ih a' with h | h
        · right
          refine ⟨hd.2, ?_, hq, ?_, ?_, ?_⟩ <;>
            simp [hred, h, ha']
        · right
          rcases h with ⟨cfg, hmem, hqc, h1, h2, h3⟩
          exact ⟨cfg, by rw [hred]; exact List.mem_cons_of_mem _ hmem,
            hqc, by rw [hred]; exact h1, by rw [hred]; exact h2,
            by rw [hred]; exact h3⟩
      · have hred : gspcAux m (hd :: rest) a = gspcAux m rest a := by
          simp [gspcAux, hq, hs]
        rcases ih a with h | h
        · left; rw [hred]; exact h
        · right
          rcases h with ⟨cfg, hmem, hqc, h1, h2, h3⟩
          exact ⟨cfg, by rw [hred]; exact List.mem_cons_of_mem _ hmem,
            hqc, by rw [hred]; exact h1, by rw [hred]; exact h2,
            by rw [hred]; exact h3⟩
    · have hred : gspcAux m (hd :: rest) a = gspcAux m rest a := by
        simp [gspcAux, hq]
      rcases ih a with h | h
      · left; rw [hred]; exact h
      · right
        rcases h with ⟨cfg, hmem, hqc, h1, h2, h3⟩
        exact ⟨cfg, by rw [hred]; exact List.mem_cons_of_mem _ hmem,
          hqc, by rw [hred]; exact h1, by rw [hred]; exact h2,
          by rw [hred]; exact h3⟩

/-- Claim C1: for a key with a matrix entry, when at least one valid shield
qualifies (both offsets within the key's logical coordinates), the resolver
settles on a qualifying valid shield of maximal offset sum and subtracts its
offsets to obtain the local physical coordinates. -/
theorem claim_C1 (t : Topology) (m : MatrixEntry) (s₀ : String × PinCfg)
    (h₀ : s₀ ∈ validShields t) (hq₀ : qualifies s₀.2 m) :
    ∃ cfg,
      ((getSideAndPhysCoords (validShields t) m).side, cfg) ∈ validShields t ∧
      qualifies cfg m ∧
      (getSideAndPhysCoords (validShields t) m).physC = m.c - cfg.colOffset ∧
      (getSideAndPhysCoords (validShields t) m).physR = m.r - cfg.rowOffset ∧
      ∀ sp ∈ validShields t, qualifies sp.2 m →
        sp.2.colOffset + sp.2.rowOffset ≤ cfg.colOffset + cfg.rowOffset := by
  classical
  set vs := validShields t with hvs
  set a₀ : String × Int × Nat × Nat :=
    (((vs.head?).map Prod.fst).getD "common", -1, m.c, m.r) with ha₀
  have hbound := gspcAux_bound m vs a₀ s₀ h₀ hq₀
  have hgood := gspcAux_good m vs a₀
  rcases hgood with h | h
  · exfalso
    rw [h] at hbound
    have : (0 : Int) ≤ (s₀.2.colOffset + s₀.2.rowOffset : Int) := by positivity
    have hneg : (s₀.2.colOffset + s₀.2.rowOffset : Int) ≤ -1 := by
      simpa [ha₀] using hbound
    omega
  · rcases h with ⟨cfg, hmem, hqc, h1, h2, h3⟩
    refine ⟨cfg, ?_, hqc, ?_, ?_, ?_⟩
    · simpa [getSideAndPhysCoords] using hmem
    · simpa [getSideAndPhysCoords] using h2
    · simpa [getSideAndPhysCoords] using h3
    · intro sp hsp hqsp
      have := gspcAux_bound m vs a₀ sp hsp hqsp
      rw [h1] at this
      exact_mod_cast this


/-- Witness for C1, on the spec's example: the key at logical
`(row=2, col=8)` resolves to the `col-offset = 6` shield at local
`(row=2, col=2)`, and that shield maximises the qualifying offset sum. -/
theorem claim_C1_witness :
    qualifies exC1R ⟨2, 8⟩ ∧
    (getSideAndPhysCoords (validShields exC1t) ⟨2, 8⟩).side = "R" ∧
    (getSideAndPhysCoords (validShields exC1t) ⟨2, 8⟩).physC = 2 ∧
    (getSideAndPhysCoords (validShields exC1t) ⟨2, 8⟩).physR = 2 ∧
    (∃ cfg,
      ((getSideAndPhysCoords (validShields exC1t) ⟨2, 8⟩).side, cfg) ∈
        validShields exC1t ∧
      qualifies cfg ⟨2, 8⟩ ∧
      (getSideAndPhysCoords (validShields exC1t) ⟨2, 8⟩).physC =
        8 - cfg.colOffset ∧
      (getSideAndPhysCoords (validShields exC1t) ⟨2, 8⟩).physR =
        2 - cfg.rowOffset ∧
      ∀ sp ∈ validShields exC1t, qualifies sp.2 ⟨2, 8⟩ →
        sp.2.colOffset + sp.2.rowOffset ≤ cfg.colOffset + cfg.rowOffset) :=
  ⟨by decide, by decide, by decide, by decide,
    claim_C1 exC1t ⟨2, 8⟩ ("R", exC1R) (by decide) (by decide)⟩

/-! ### Shape of the reports produced by each sub-pass -/

theorem mem_interruptReports {mm vs sel side cfg rep}
    (h : rep ∈ interruptReports mm vs sel side cfg) :
    ∃ ip, cfg.interrupt = some ip ∧
      (sideKeys mm vs side).length > 5 ∧
      ratioVeryHigh (selOnSide mm vs sel side) (sideKeys mm vs side).length ∧
      rep = .interrupt side ip (sideKeys mm vs side) := by
  unfold interruptReports at h
  cases hi : cfg.interrupt with
  | none => rw [hi] at h; simp at h
  | some ip =>
    rw [hi] at h
    simp only at h
    split at h
    · rename_i hcond
      simp only [List.mem_singleton] at h
      exact ⟨ip, rfl, hcond.1, hcond.2, h⟩
    · simp at h

theorem interruptReports_fire {mm vs sel side cfg ip}
    (hi : cfg.interrupt = some ip)
    (h5 : (sideKeys mm vs side).length > 5)
    (hr : ratioVeryHigh (selOnSide mm vs sel side) (sideKeys mm vs side).length) :
    interruptReports mm vs sel side cfg =
      [.interrupt side ip (sideKeys mm vs side)] := by
  unfold interruptReports
  rw [hi]
  simp [h5, hr]

theorem charlieReportFor_eq_some {mm vs sel side g pIdx rep} :
    charlieReportFor mm vs sel side g pIdx = some rep ↔
      (charlieInFail mm vs sel side pIdx ∨ charlieOutFail mm vs sel side pIdx) ∧
      rep = .charlie side pIdx ((List.lookup pIdx g).getD "Unknown")
        (charlieRole mm vs sel side pIdx)
        (charlieInvolved mm vs sel side pIdx) := by
  unfold charlieReportFor
  split
  · rename_i hcond
    simp only [Option.some.injEq]
    constructor
    · intro h; exact ⟨hcond, h.symm⟩
    · intro h; exact h.2.symm
  · rename_i hcond
    constructor
    · intro h; simp at h
    · rintro ⟨h1, -⟩; exact absurd h1 hcond

theorem mem_charlieReports {mm vs sel side g rep} :
    rep ∈ charlieReports mm vs sel side g ↔
      ∃ pIdx ∈ charlieOrdinals mm vs side,
        charlieReportFor mm vs sel side g pIdx = some rep := by
  unfold charlieReports
  simp [List.mem_filterMap]

theorem charlie_shape {mm vs sel side g rep}
    (h : rep ∈ charlieReports mm vs sel side g) :
    ∃ pIdx pin role ind, rep = .charlie side pIdx pin role ind := by
  rcases mem_charlieReports.mp h with ⟨pIdx, _, hsome⟩
  rcases charlieReportFor_eq_some.mp hsome with ⟨_, hrep⟩
  exact ⟨pIdx, _, _, _, hrep⟩

theorem mem_directReports {mm vs sel side d rep}
    (h : rep ∈ directReports mm vs sel side d) :
    (rep = .directGnd side (directKeyIdxs mm vs side d) ∧
      (directKeyIdxs mm vs side d).length > 2 ∧
      ratioVeryHigh
        ((directKeyIdxs mm vs side d).filter (fun i => sel.contains i)).length
        (directKeyIdxs mm vs side d).length) ∨
    (∃ idx ∈ (directKeyIdxs mm vs side d).filter (fun i => sel.contains i),
      ∃ pin, rep = .direct side pin idx [idx] ∧
      ¬((directKeyIdxs mm vs side d).length > 2 ∧
        ratioVeryHigh
          ((directKeyIdxs mm vs side d).filter (fun i => sel.contains i)).length
          (directKeyIdxs mm vs side d).length)) := by
  unfold directReports at h
  dsimp only at h
  split at h
  · rename_i hcond
    left
    simp only [List.mem_singleton] at h
    exact ⟨h, hcond⟩
  · rename_i hcond
    right
    rcases List.mem_map.mp h with ⟨idx, hidx, hrep⟩
    refine ⟨idx, hidx, ?_⟩
    cases he : entryAt mm idx with
    | some m => rw [he] at hrep; exact ⟨_, hrep.symm, hcond⟩
    | none => rw [he] at hrep; exact ⟨_, hrep.symm, hcond⟩

theorem mem_rowReports {mm vs sel side cfg rep} :
    rep ∈ rowReports mm vs sel side cfg ↔
      ∃ r ∈ objKeys (selPhysRsOf mm vs sel side),
        0 < rowTotal mm vs side r ∧
        ratioHigh (rowGroup mm vs sel side r).length (rowTotal mm vs side r) ∧
        rep = .row side r (List.lookup r cfg.row) (rowGroup mm vs sel side r) := by
  unfold rowReports
  simp only [List.mem_filterMap]
  constructor
  · rintro ⟨r, hr, hsome⟩
    refine ⟨r, hr, ?_⟩
    split at hsome
    · rename_i hcond
      simp only [Option.some.injEq] at hsome
      exact ⟨hcond.1, hcond.2, hsome.symm⟩
    · simp at hsome
  · rintro ⟨r, hr, h1, h2, hrep⟩
    refine ⟨r, hr, ?_⟩
    simp only [h1, h2, and_self, if_true]
    exact congrArg some hrep.symm

theorem mem_colReports {mm vs sel side cfg rep} :
    rep ∈ colReports mm vs sel side cfg ↔
      ∃ c ∈ objKeys (selPhysCsOf mm vs sel side),
        0 < colTotal mm vs side c ∧
        ratioHigh (colGroup mm vs sel side c).length (colTotal mm vs side c) ∧
        rep = .col side c (List.lookup c cfg.col) (colGroup mm vs sel side c) := by
  unfold colReports
  simp only [List.mem_filterMap]
  constructor
  · rintro ⟨c, hc, hsome⟩
    refine ⟨c, hc, ?_⟩
    split at hsome
    · rename_i hcond
      simp only [Option.some.injEq] at hsome
      exact ⟨hcond.1, hcond.2, hsome.symm⟩
    · simp at hsome
  · rintro ⟨c, hc, h1, h2, hrep⟩
    refine ⟨c, hc, ?_⟩
    simp only [h1, h2, and_self, if_true]
    exact congrArg some hrep.symm

theorem mem_singleReports {mm vs sel covered side rep} :
    rep ∈ singleReports mm vs sel covered side ↔
      ∃ idx ∈ sel, ¬covered.contains idx ∧
        ∃ m, entryAt mm idx = some m ∧
          (getSideAndPhysCoords vs m).side = side ∧
          rep = .single side m.r m.c idx [idx] := by
  unfold singleReports
  simp only [List.mem_filterMap]
  constructor
  · rintro ⟨idx, hidx, hsome⟩
    refine ⟨idx, hidx, ?_⟩
    split at hsome
    · simp at hsome
    · rename_i hcov
      cases he : entryAt mm idx with
      | none => rw [he] at hsome; simp at hsome
      | some m =>
        rw [he] at hsome
        simp only at hsome
        split at hsome
        · rename_i hside
          simp only [Option.some.injEq] at hsome
          exact ⟨by simpa using hcov, m, rfl, by simpa using hside, hsome.symm⟩
        · simp at hsome
  · rintro ⟨idx, hidx, hcov, m, he, hside, hrep⟩
    refine ⟨idx, hidx, ?_⟩
    rw [if_neg (by simpa using hcov), he]
    simp [hside, hrep]

/-! ### Side purity and single/non-single classification -/

theorem side_of_wiring {mm vs sel side cfg rep}
    (h : rep ∈ wiringReports mm vs sel side cfg) : rep.side = side := by
  unfold wiringReports at h
  cases hg : cfg.gpios with
  | some g =>
    rw [hg] at h
    rcases charlie_shape h with ⟨pIdx, pin, role, ind, hrep⟩
    simp [hrep, Report.side]
  | none =>
    rw [hg] at h
    cases hd : cfg.direct with
    | some d =>
      rw [hd] at h
      rcases mem_directReports h with ⟨hrep, -⟩ | ⟨idx, -, pin, hrep, -⟩ <;>
        simp [hrep, Report.side]
    | none =>
      rw [hd] at h
      unfold standardReports at h
      rcases List.mem_append.mp h with h | h
      · rcases mem_rowReports.mp h with ⟨r, -, -, -, hrep⟩
        simp [hrep, Report.side]
      · rcases mem_colReports.mp h with ⟨c, -, -, -, hrep⟩
        simp [hrep, Report.side]

theorem notSingle_of_wiring {mm vs sel side cfg rep}
    (h : rep ∈ wiringReports mm vs sel side cfg) : rep.isSingle = false := by
  unfold wiringReports at h
  cases hg : cfg.gpios with
  | some g =>
    rw [hg] at h
    rcases charlie_shape h with ⟨pIdx, pin, role, ind, hrep⟩
    simp [hrep, Report.isSingle]
  | none =>
    rw [hg] at h
    cases hd : cfg.direct with
    | some d =>
      rw [hd] at h
      rcases mem_directReports h with ⟨hrep, -⟩ | ⟨idx, -, pin, hrep, -⟩ <;>
        simp [hrep, Report.isSingle]
    | none =>
      rw [hd] at h
      unfold standardReports at h
      rcases List.mem_append.mp h with h | h
      · rcases mem_rowReports.mp h with ⟨r, -, -, -, hrep⟩
        simp [hrep, Report.isSingle]
      · rcases mem_colReports.mp h with ⟨c, -, -, -, hrep⟩
        simp [hrep, Report.isSingle]

theorem side_of_interrupt {mm vs sel side cfg rep}
    (h : rep ∈ interruptReports mm vs sel side cfg) : rep.side = side := by
  rcases mem_interruptReports h with ⟨ip, -, -, -, hrep⟩
  simp [hrep, Report.side]

theorem notSingle_of_interrupt {mm vs sel side cfg rep}
    (h : rep ∈ interruptReports mm vs sel side cfg) : rep.isSingle = false := by
  rcases mem_interruptReports h with ⟨ip, -, -, -, hrep⟩
  simp [hrep, Report.isSingle]

theorem side_of_singleReports {mm vs sel covered side rep}
    (h : rep ∈ singleReports mm vs sel covered side) : rep.side = side := by
  rcases mem_singleReports.mp h with ⟨idx, -, -, m, -, -, hrep⟩
  simp [hrep, Report.side]

theorem isSingle_of_singleReports {mm vs sel covered side rep}
    (h : rep ∈ singleReports mm vs sel covered side) : rep.isSingle = true := by
  rcases mem_singleReports.mp h with ⟨idx, -, -, m, -, -, hrep⟩
  simp [hrep, Report.isSingle]

/-! ### Decomposition of the per-shield pass and the shield loop -/

theorem shieldPass_fst (mm : List (Option MatrixEntry))
    (vs : List (String × PinCfg)) (sel covered : List Nat) (side : String)
    (cfg : PinCfg) :
    (shieldPass mm vs sel covered side cfg).1 =
      interruptReports mm vs sel side cfg ++ wiringReports mm vs sel side cfg ++
        singleReports mm vs sel
          (coveredAdd (coveredAdd covered (interruptReports mm vs sel side cfg))
            (wiringReports mm vs sel side cfg)) side := rfl

theorem shieldPass_snd (mm : List (Option MatrixEntry))
    (vs : List (String × PinCfg)) (sel covered : List Nat) (side : String)
    (cfg : PinCfg) :
    (shieldPass mm vs sel covered side cfg).2 =
      coveredAdd (coveredAdd covered (interruptReports mm vs sel side cfg))
        (wiringReports mm vs sel side cfg) := rfl

theorem side_of_shieldPass {mm vs sel covered side cfg rep}
    (h : rep ∈ (shieldPass mm vs sel covered side cfg).1) : rep.side = side := by
  rw [shieldPass_fst] at h
  rcases List.mem_append.mp h with h | h
  · rcases List.mem_append.mp h with h | h
    · exact side_of_interrupt h
    · exact side_of_wiring h
  · exact side_of_singleReports h

theorem mem_shieldPass_nonSingle {mm vs sel covered side cfg rep}
    (hns : rep.isSingle = false) :
    rep ∈ (shieldPass mm vs sel covered side cfg).1 ↔
      rep ∈ interruptReports mm vs sel side cfg ++
        wiringReports mm vs sel side cfg := by
  rw [shieldPass_fst, List.append_assoc]
  constructor
  · intro h
    rcases List.mem_append.mp h with h | h
    · exact List.mem_append_left _ h
    · rcases List.mem_append.mp h with h | h
      · exact List.mem_append_right _ h
      · rw [isSingle_of_singleReports h] at hns; cases hns
  · intro h
    rcases List.mem_append.mp h with h | h
    · exact List.mem_append_left _ h
    · exact List.mem_append_right _ (List.mem_append_left _ h)

theorem covered_subset_shieldPass {mm vs sel covered side cfg} :
    covered ⊆ (shieldPass mm vs sel covered side cfg).2 := by
  rw [shieldPass_snd]
  intro x hx
  unfold coveredAdd
  exact List.mem_append_left _ (List.mem_append_left _ hx)

theorem runShields_nil (mm : List (Option MatrixEntry))
    (vs : List (String × PinCfg)) (sel covered : List Nat) :
    runShields mm vs sel [] covered = ([], covered) := rfl

theorem runShields_cons (mm : List (Option MatrixEntry))
    (vs : List (String × PinCfg)) (sel covered : List Nat)
    (sp : String × PinCfg) (rest : List (String × PinCfg)) :
    runShields mm vs sel (sp :: rest) covered =
      ((shieldPass mm vs sel covered sp.1 sp.2).1 ++
        (runShields mm vs sel rest
          (shieldPass mm vs sel covered sp.1 sp.2).2).1,
        (runShields mm vs sel rest
          (shieldPass mm vs sel covered sp.1 sp.2).2).2) := rfl

theorem side_mem_of_runShields {mm vs sel rep} :
    ∀ {l : List (String × PinCfg)} {covered : List Nat},
      rep ∈ (runShields mm vs sel l covered).1 →
        rep.side ∈ l.map Prod.fst := by
  intro l
  induction l with
  | nil => intro covered h; simp [runShields_nil] at h
  | cons sp rest ih =>
    intro covered h
    rw [runShields_cons] at h
    rcases List.mem_append.mp h with h | h
    · simp [side_of_shieldPass h]
    · exact List.mem_cons_of_mem _ (ih h)

theorem covered_subset_runShields {mm vs sel} :
    ∀ {l : List (String × PinCfg)} {covered : List Nat},
      covered ⊆ (runShields mm vs sel l covered).2 := by
  intro l
  induction l with
  | nil => intro covered; simp [runShields_nil]
  | cons sp rest ih =>
    intro covered
    rw [runShields_cons]
    exact fun x hx => ih (covered_subset_shieldPass hx)

theorem mem_runShields_nonSingle {mm vs sel side cfg rep}
    (hns : rep.isSingle = false) (hside : rep.side = side) :
    ∀ {l : List (String × PinCfg)} {covered : List Nat},
      (side, cfg) ∈ l → (l.map Prod.fst).Nodup →
      (rep ∈ (runShields mm vs sel l covered).1 ↔
        rep ∈ interruptReports mm vs sel side cfg ++
          wiringReports mm vs sel side cfg) := by
  intro l
  induction l with
  | nil => intro covered hmem; simp at hmem
  | cons sp rest ih =>
    intro covered hmem hnd
    have hnd' : (rest.map Prod.fst).Nodup := (List.nodup_cons.mp hnd).2
    have hsp : sp.1 ∉ rest.map Prod.fst := (List.nodup_cons.mp hnd).1
    rw [runShields_cons]
    rcases List.mem_cons.mp hmem with heq | hmem'
    · subst heq
      constructor
      · intro h
        rcases List.mem_append.mp h with h | h
        · exact (mem_shieldPass_nonSingle hns).mp h
        · exfalso
          have hmm := side_mem_of_runShields h
          rw [hside] at hmm
          exact hsp hmm
      · intro h
        exact List.mem_append_left _ ((mem_shieldPass_nonSingle hns).mpr h)
    · have hne : sp.1 ≠ side := by
        intro hcontra
        apply hsp
        rw [hcontra]
        exact List.mem_map_of_mem Prod.fst hmem'
      constructor
      · intro h
        rcases List.mem_append.mp h with h | h
        · exfalso
          exact hne (hside ▸ (side_of_shieldPass h).symm)
        · exact (ih hmem' hnd').mp h
      · intro h
        exact List.mem_append_right _ ((ih hmem' hnd').mpr h)

/-! ### Membership in the accumulated row/column structures -/

theorem mem_objKeys {l : List Nat} {x : Nat} : x ∈ objKeys l ↔ x ∈ l := by
  unfold objKeys
  rw [(List.perm_insertionSort _ _).mem_iff, List.mem_dedup]

theorem mem_of_entryAt {mm : List (Option MatrixEntry)} {idx : Nat}
    {m : MatrixEntry} (he : entryAt mm idx = some m) : some m ∈ mm := by
  unfold entryAt at he
  rw [List.getD_eq_getElem?_getD] at he
  rcases hx : mm[idx]? with _ | x
  · rw [hx] at he; simp at he
  · rw [hx] at he
    simp only [Option.getD_some] at he
    subst he
    exact List.getElem?_mem hx

theorem mem_selPhysRsOf {mm vs sel side r} :
    r ∈ selPhysRsOf mm vs sel side ↔
      ∃ idx ∈ sel, ∃ m, entryAt mm idx = some m ∧
        (getSideAndPhysCoords vs m).side = side ∧
        (getSideAndPhysCoords vs m).physR = r := by
  unfold selPhysRsOf
  simp only [List.mem_filterMap]
  constructor
  · rintro ⟨idx, hidx, hsome⟩
    refine ⟨idx, hidx, ?_⟩
    cases he : entryAt mm idx with
    | none => rw [he] at hsome; simp at hsome
    | some m =>
      rw [he] at hsome
      simp only at hsome
      split at hsome
      · rename_i hside
        simp only [Option.some.injEq] at hsome
        exact ⟨m, rfl, by simpa using hside, hsome⟩
      · simp at hsome
  · rintro ⟨idx, hidx, m, he, hside, hr⟩
    exact ⟨idx, hidx, by rw [he]; simp [hside, hr]⟩

theorem mem_selPhysCsOf {mm vs sel side c} :
    c ∈ selPhysCsOf mm vs sel side ↔
      ∃ idx ∈ sel, ∃ m, entryAt mm idx = some m ∧
        (getSideAndPhysCoords vs m).side = side ∧
        (getSideAndPhysCoords vs m).physC = c := by
  unfold selPhysCsOf
  simp only [List.mem_filterMap]
  constructor
  · rintro ⟨idx, hidx, hsome⟩
    refine ⟨idx, hidx, ?_⟩
    cases he : entryAt mm idx with
    | none => rw [he] at hsome; simp at hsome
    | some m =>
      rw [he] at hsome
      simp only at hsome
      split at hsome
      · rename_i hside
        simp only [Option.some.injEq] at hsome
        exact ⟨m, rfl, by simpa using hside, hsome⟩
      · simp at hsome
  · rintro ⟨idx, hidx, m, he, hside, hc⟩
    exact ⟨idx, hidx, by rw [he]; simp [hside, hc]⟩

theorem mem_rowGroup {mm vs sel side r idx} :
    idx ∈ rowGroup mm vs sel side r ↔
      idx ∈ sel ∧ ∃ m, entryAt mm idx = some m ∧
        (getSideAndPhysCoords vs m).side = side ∧
        (getSideAndPhysCoords vs m).physR = r := by
  unfold rowGroup
  rw [List.mem_filter]
  refine and_congr_right fun _ => ?_
  cases he : entryAt mm idx with
  | none => simp
  | some m => simp [beq_iff_eq]

theorem mem_colGroup {mm vs sel side c idx} :
    idx ∈ colGroup mm vs sel side c ↔
      idx ∈ sel ∧ ∃ m, entryAt mm idx = some m ∧
        (getSideAndPhysCoords vs m).side = side ∧
        (getSideAndPhysCoords vs m).physC = c := by
  unfold colGroup
  rw [List.mem_filter]
  refine and_congr_right fun _ => ?_
  cases he : entryAt mm idx with
  | none => simp
  | some m => simp [beq_iff_eq]

theorem rowTotal_pos_of_entry {mm vs side r idx m}
    (he : entryAt mm idx = some m)
    (hs : (getSideAndPhysCoords vs m).side = side)
    (hr : (getSideAndPhysCoords vs m).physR = r) :
    0 < rowTotal mm vs side r := by
  unfold rowTotal
  rw [List.countP_pos_iff]
  exact ⟨some m, mem_of_entryAt he, by simp [hs, hr]⟩

theorem colTotal_pos_of_entry {mm vs side c idx m}
    (he : entryAt mm idx = some m)
    (hs : (getSideAndPhysCoords vs m).side = side)
    (hc : (getSideAndPhysCoords vs m).physC = c) :
    0 < colTotal mm vs side c := by
  unfold colTotal
  rw [List.countP_pos_iff]
  exact ⟨some m, mem_of_entryAt he, by simp [hs, hc]⟩

theorem rowGroup_ne_nil_of_ratio {mm vs sel side r}
    (h : ratioHigh (rowGroup mm vs sel side r).length
      (rowTotal mm vs side r)) :
    ∃ idx, idx ∈ rowGroup mm vs sel side r := by
  rcases hg : rowGroup mm vs sel side r with _ | ⟨idx, rest⟩
  · exfalso
    unfold ratioHigh at h
    rw [hg] at h
    simp at h
  · exact ⟨idx, by simp⟩

theorem colGroup_ne_nil_of_ratio {mm vs sel side c}
    (h : ratioHigh (colGroup mm vs sel side c).length
      (colTotal mm vs side c)) :
    ∃ idx, idx ∈ colGroup mm vs sel side c := by
  rcases hg : colGroup mm vs sel side c with _ | ⟨idx, rest⟩
  · exfalso
    unfold ratioHigh at h
    rw [hg] at h
    simp at h
  · exact ⟨idx, by simp⟩

theorem analyzeFailures_eq_run {t : Topology} {sel : List Nat}
    (h : validShields t ≠ []) :
    analyzeFailures t sel =
      (runShields t.matrixMap (validShields t) sel (validShields t) []).1 := by
  unfold analyzeFailures
  rw [if_neg (by simp [List.isEmpty_iff, h])]

theorem analyzeCovered_eq_run {t : Topology} {sel : List Nat}
    (h : validShields t ≠ []) :
    analyzeCovered t sel =
      (runShields t.matrixMap (validShields t) sel (validShields t) []).2 := by
  unfold analyzeCovered
  rw [if_neg (by simp [List.isEmpty_iff, h])]

theorem mem_sideKeys {mm vs side idx} :
    idx ∈ sideKeys mm vs side ↔
      idx < mm.length ∧ ∃ m, entryAt mm idx = some m ∧
        (getSideAndPhysCoords vs m).side = side := by
  unfold sideKeys
  rw [List.mem_filter, List.mem_range]
  refine and_congr_right fun _ => ?_
  cases he : entryAt mm idx with
  | none => simp
  | some m => simp [beq_iff_eq]

theorem single_mem_shieldPass {mm vs sel cov side' cfg' s r c i ind}
    (h : Report.single s r c i ind ∈ (shieldPass mm vs sel cov side' cfg').1) :
    s = side' ∧ i ∈ sel ∧ ∃ m, entryAt mm i = some m ∧
      (getSideAndPhysCoords vs m).side = side' := by
  rw [shieldPass_fst] at h
  rcases List.mem_append.mp h with h | h
  · rcases List.mem_append.mp h with h | h
    · rcases mem_interruptReports h with ⟨ip, -, -, -, hrep⟩
      exact Report.noConfusion hrep
    · have := notSingle_of_wiring h
      simp [Report.isSingle] at this
  · rcases mem_singleReports.mp h with ⟨idx, hsel, -, m, he, hside, hrep⟩
    obtain ⟨rfl, -, -, rfl, -⟩ := Report.single.inj hrep
    exact ⟨rfl, hsel, m, he, hside⟩

theorem single_mem_runShields_resolved {mm vs sel s r c i ind} :
    ∀ {l : List (String × PinCfg)} {cov : List Nat},
      Report.single s r c i ind ∈ (runShields mm vs sel l cov).1 →
      s ∈ l.map Prod.fst ∧ i ∈ sel ∧ ∃ m, entryAt mm i = some m ∧
        (getSideAndPhysCoords vs m).side = s := by
  intro l
  induction l with
  | nil => intro cov h; simp [runShields_nil] at h
  | cons sp rest ih =>
    intro cov h
    rw [runShields_cons] at h
    rcases List.mem_append.mp h with h | h
    · rcases single_mem_shieldPass h with ⟨hs, hsel, m, he, hside⟩
      exact ⟨by simp [hs], hsel, m, he, hs ▸ hside⟩
    · rcases ih h with ⟨hs, hsel, hm⟩
      exact ⟨List.mem_cons_of_mem _ hs, hsel, hm⟩

theorem no_single_of_interrupt_covered {mm vs sel side cfg ip idx}
    (hip : cfg.interrupt = some ip)
    (h5 : (sideKeys mm vs side).length > 5)
    (hr : ratioVeryHigh (selOnSide mm vs sel side) (sideKeys mm vs side).length)
    (hidx : idx ∈ sideKeys mm vs side) :
    ∀ {l : List (String × PinCfg)} {cov : List Nat},
      (side, cfg) ∈ l → (l.map Prod.fst).Nodup →
      ∀ s r c ind, Report.single s r c idx ind ∉
        (runShields mm vs sel l cov).1 := by
  have hres : ∃ m, entryAt mm idx = some m ∧
      (getSideAndPhysCoords vs m).side = side := (mem_sideKeys.mp hidx).2
  intro l
  induction l with
  | nil => intro cov hmem; simp at hmem
  | cons sp rest ih =>
    intro cov hmem hnd s r c ind h
    have hnd' : (rest.map Prod.fst).Nodup := (List.nodup_cons.mp hnd).2
    have hsp : sp.1 ∉ rest.map Prod.fst := (List.nodup_cons.mp hnd).1
    rw [runShields_cons] at h
    rcases List.mem_cons.mp hmem with heq | hmem'
    · subst heq
      rcases List.mem_append.mp h with h | h
      · rw [shieldPass_fst] at h
        dsimp only at h
        rcases List.mem_append.mp h with h | h
        · rcases List.mem_append.mp h with h | h
          · rcases mem_interruptReports h with ⟨ip', -, -, -, hrep⟩
            exact Report.noConfusion hrep
          · have := notSingle_of_wiring h
            simp [Report.isSingle] at this
        · rcases mem_singleReports.mp h with ⟨idx', -, hncov, m, he, hside, hrep⟩
          obtain ⟨-, -, -, rfl, -⟩ := Report.single.inj hrep
          apply hncov
          have hfire : interruptReports mm vs sel side cfg =
              [.interrupt side ip (sideKeys mm vs side)] :=
            interruptReports_fire hip h5 hr
          have hcov1 : idx ∈
              coveredAdd cov (interruptReports mm vs sel side cfg) := by
            rw [hfire]
            unfold coveredAdd
            refine List.mem_append_right _ ?_
            simpa [Report.isSingle, Report.indices] using hidx
          have hcov2 : idx ∈
              coveredAdd (coveredAdd cov (interruptReports mm vs sel side cfg))
                (wiringReports mm vs sel side cfg) := by
            unfold coveredAdd
            exact List.mem_append_left _ hcov1
          exact List.elem_iff.mpr hcov2
      · rcases single_mem_runShields_resolved h with ⟨hs, -, m', he', hside'⟩
        rcases hres with ⟨m, he, hside⟩
        have hm : m' = m := by
          rw [he] at he'
          exact (Option.some.inj he').symm
        rw [hm, hside] at hside'
        rw [← hside'] at hs
        exact hsp hs
    · have hne : sp.1 ≠ side := by
        intro hcontra
        apply hsp
        rw [hcontra]
        exact List.mem_map_of_mem Prod.fst hmem'
      rcases List.mem_append.mp h with h | h
      · rcases single_mem_shieldPass h with ⟨-, -, m', he', hside'⟩
        rcases hres with ⟨m, he, hside⟩
        have hm : m' = m := by
          rw [he] at he'
          exact (Option.some.inj he').symm
        rw [hm, hside] at hside'
        exact hne hside'.symm
      · exact ih hmem' hnd' s r c ind h

/-- Claim C5: for a valid shield with a declared interrupt pin, more than 5
keys, and a failing fraction strictly above 0.8, the localizer emits an
`interrupt` report implicating every key of the shield (failing or not), and
none of those keys is also emitted as a `single` report. -/
theorem claim_C5 (t : Topology) (sel : List Nat) (side : String) (cfg : PinCfg)
    (ip : String)
    (hmem : (side, cfg) ∈ validShields t)
    (hnd : ((validShields t).map Prod.fst).Nodup)
    (hip : cfg.interrupt = some ip)
    (h5 : (sideKeys t.matrixMap (validShields t) side).length > 5)
    (hr : ratioVeryHigh (selOnSide t.matrixMap (validShields t) sel side)
      (sideKeys t.matrixMap (validShields t) side).length) :
    Report.interrupt side ip (sideKeys t.matrixMap (validShields t) side) ∈
      analyzeFailures t sel ∧
    ∀ idx ∈ sideKeys t.matrixMap (validShields t) side,
      ∀ s r c ind, Report.single s r c idx ind ∉ analyzeFailures t sel := by
  have hne : validShields t ≠ [] := by
    intro hcontra; rw [hcontra] at hmem; simp at hmem
  constructor
  · have hiff := @mem_runShields_nonSingle t.matrixMap (validShields t) sel side
      cfg (Report.interrupt side ip
        (sideKeys t.matrixMap (validShields t) side)) rfl rfl
      (validShields t) [] hmem hnd
    rw [analyzeFailures_eq_run hne, hiff]
    refine List.mem_append_left _ ?_
    rw [interruptReports_fire hip h5 hr]
    exact List.mem_singleton.mpr rfl
  · intro idx hidx s r c ind
    rw [analyzeFailures_eq_run hne]
    exact no_single_of_interrupt_covered hip h5 hr hidx hmem hnd s r c ind

/-- Witness for C5: a 6-key shield with interrupt pin and 5 of 6 keys
failing (0.83 > 0.8) produces an `interrupt` report covering all six keys,
and failing key 0 is not also reported as `single`. -/
theorem claim_C5_witness :
    Report.interrupt "i" "INT" [0, 1, 2, 3, 4, 5] ∈
      analyzeFailures exC5t [0, 1, 2, 3, 4] ∧
    ∀ s r c ind,
      Report.single s r c 0 ind ∉ analyzeFailures exC5t [0, 1, 2, 3, 4] := by
  have hthm := claim_C5 exC5t [0, 1, 2, 3, 4] "i" exC5cfg "INT" (by decide)
    (by decide) rfl (by decide) (by decide)
  exact ⟨hthm.1, hthm.2 0 (by decide)⟩



/-! ### Counting `single` reports for one key -/

theorem isSingleFor_shape {idx : Nat} {rep : Report}
    (h : isSingleFor idx rep = true) :
    ∃ s r c ind, rep = .single s r c idx ind := by
  cases rep with
  | interrupt s p l => simp [isSingleFor] at h
  | charlie s i p ro l => simp [isSingleFor] at h
  | directGnd s l => simp [isSingleFor] at h
  | direct s p i l => simp [isSingleFor] at h
  | row s r p l => simp [isSingleFor] at h
  | col s c p l => simp [isSingleFor] at h
  | single s r c i ind =>
    simp only [isSingleFor, beq_iff_eq] at h
    exact ⟨s, r, c, ind, by rw [h]⟩

theorem countP_filterMap_model {α β : Type} (f : α → Option β) (p : β → Bool) :
    ∀ l : List α, (l.filterMap f).countP p =
      l.countP (fun a => ((f a).map p).getD false) := by
  intro l
  induction l with
  | nil => rfl
  | cons a l ih =>
    cases hf : f a with
    | none => simp [List.filterMap_cons, hf, List.countP_cons, ih]
    | some b => simp [List.filterMap_cons, hf, List.countP_cons, ih]

theorem countP_eq_one_nodup {l : List Nat} {p : Nat → Bool} {x : Nat}
    (hnd : l.Nodup) (hx : x ∈ l) (hpx : p x = true)
    (honly : ∀ y ∈ l, p y = true → y = x) : l.countP p = 1 := by
  induction l with
  | nil => simp at hx
  | cons a l ih =>
    rw [List.countP_cons]
    rcases List.mem_cons.mp hx with rfl | hx'
    · have hzero : l.countP p = 0 := by
        rw [List.countP_eq_zero]
        intro y hy hpy
        have hxy := honly y (List.mem_cons_of_mem _ hy) hpy
        subst hxy
        exact (List.nodup_cons.mp hnd).1 hy
      simp [hzero, hpx]
    · have hpa : p a = false := by
        by_contra hcontra
        rw [Bool.not_eq_false] at hcontra
        have hax := honly a (List.mem_cons_self _ _) hcontra
        subst hax
        exact (List.nodup_cons.mp hnd).1 hx'
      rw [ih (List.nodup_cons.mp hnd).2 hx'
        (fun y hy hpy => honly y (List.mem_cons_of_mem _ hy) hpy)]
      simp [hpa]

theorem countP_isSingleFor_zero_of_notSingle {idx : Nat} {L : List Report}
    (h : ∀ rep ∈ L, rep.isSingle = false) :
    L.countP (isSingleFor idx) = 0 := by
  rw [List.countP_eq_zero]
  intro rep hrep hcontra
  rcases isSingleFor_shape hcontra with ⟨s, r, c, ind, rfl⟩
  have hns := h _ hrep
  simp [Report.isSingle] at hns

theorem countP_singleReports_self {mm vs sel cov side idx m}
    (hselnd : sel.Nodup) (hidx : idx ∈ sel)
    (he : entryAt mm idx = some m)
    (hside : (getSideAndPhysCoords vs m).side = side)
    (hncov : idx ∉ cov) :
    (singleReports mm vs sel cov side).countP (isSingleFor idx) = 1 := by
  unfold singleReports
  rw [countP_filterMap_model]
  apply countP_eq_one_nodup hselnd hidx
  · rw [if_neg (fun hcontra => hncov (List.elem_iff.mp hcontra)), he]
    simp [hside, isSingleFor]
  · intro y hy hpy
    by_cases hcov : cov.contains y
    · rw [if_pos hcov] at hpy
      simp at hpy
    · rw [if_neg hcov] at hpy
      cases he' : entryAt mm y with
      | none => rw [he'] at hpy; simp at hpy
      | some m' =>
        rw [he'] at hpy
        simp only at hpy
        split at hpy
        · simpa [isSingleFor, beq_iff_eq] using hpy
        · simp at hpy

theorem countP_singleFor_shieldPass_other {mm vs sel cov side' cfg' side idx m}
    (he : entryAt mm idx = some m)
    (hside : (getSideAndPhysCoords vs m).side = side)
    (hne : side' ≠ side) :
    ((shieldPass mm vs sel cov side' cfg').1).countP (isSingleFor idx) = 0 := by
  rw [List.countP_eq_zero]
  intro rep hrep hcontra
  rcases isSingleFor_shape hcontra with ⟨s, r, c, ind, rfl⟩
  rcases single_mem_shieldPass hrep with ⟨-, -, m', he', hside'⟩
  rw [he] at he'
  rw [(Option.some.inj he').symm, hside] at hside'
  exact hne hside'.symm

theorem countP_singleFor_runShields_zero {mm vs sel side idx m}
    (he : entryAt mm idx = some m)
    (hside : (getSideAndPhysCoords vs m).side = side) :
    ∀ {l : List (String × PinCfg)} {cov : List Nat},
      side ∉ l.map Prod.fst →
      (runShields mm vs sel l cov).1.countP (isSingleFor idx) = 0 := by
  intro l
  induction l with
  | nil => intro cov hni; simp [runShields_nil]
  | cons sp rest ih =>
    intro cov hni
    have hsp : sp.1 ≠ side := by
      intro hcontra
      exact hni (by simp [hcontra])
    have hni' : side ∉ rest.map Prod.fst := by
      intro hcontra
      exact hni (List.mem_cons_of_mem _ hcontra)
    rw [runShields_cons]
    dsimp only
    rw [List.countP_append,
      countP_singleFor_shieldPass_other he hside hsp, ih hni']

theorem runShields_cov_eq {mm vs sel} :
    ∀ {l : List (String × PinCfg)} {cov : List Nat},
      (runShields mm vs sel l cov).2 =
        cov ++ ((runShields mm vs sel l cov).1.filter
          (fun rep => !rep.isSingle)).flatMap Report.indices := by
  intro l
  induction l with
  | nil => intro cov; simp [runShields_nil]
  | cons sp rest ih =>
    intro cov
    rw [runShields_cons]
    dsimp only
    have hsingle : ∀ cov' : List Nat, (singleReports mm vs sel cov' sp.1).filter
        (fun rep => !rep.isSingle) = [] := by
      intro cov'
      rw [List.filter_eq_nil_iff]
      intro rep hrep
      simp [isSingle_of_singleReports hrep]
    have hint : (interruptReports mm vs sel sp.1 sp.2).filter
        (fun rep => !rep.isSingle) = interruptReports mm vs sel sp.1 sp.2 := by
      rw [List.filter_eq_self]
      intro rep hrep
      simp [notSingle_of_interrupt hrep]
    have hwir : (wiringReports mm vs sel sp.1 sp.2).filter
        (fun rep => !rep.isSingle) = wiringReports mm vs sel sp.1 sp.2 := by
      rw [List.filter_eq_self]
      intro rep hrep
      simp [notSingle_of_wiring hrep]
    rw [ih, shieldPass_fst, shieldPass_snd]
    unfold coveredAdd
    simp only [List.filter_append, hsingle, hint, hwir, List.append_nil,
      List.flatMap_append, List.append_assoc]
    simp

theorem countP_singleFor_runShields {mm vs sel side cfg idx m}
    (hselnd : sel.Nodup) (hidx : idx ∈ sel)
    (he : entryAt mm idx = some m)
    (hside : (getSideAndPhysCoords vs m).side = side) :
    ∀ {l : List (String × PinCfg)} {cov : List Nat},
      (side, cfg) ∈ l → (l.map Prod.fst).Nodup →
      idx ∉ (runShields mm vs sel l cov).2 →
      (runShields mm vs sel l cov).1.countP (isSingleFor idx) = 1 ∧
      Report.single side m.r m.c idx [idx] ∈ (runShields mm vs sel l cov).1 := by
  intro l
  induction l with
  | nil => intro cov hmem; simp at hmem
  | cons sp rest ih =>
    intro cov hmem hnd hncov
    have hnd' : (rest.map Prod.fst).Nodup := (List.nodup_cons.mp hnd).2
    have hsp : sp.1 ∉ rest.map Prod.fst := (List.nodup_cons.mp hnd).1
    rw [runShields_cons] at hncov ⊢
    dsimp only at hncov ⊢
    rcases List.mem_cons.mp hmem with heq | hmem'
    · subst heq
      dsimp only at hncov hsp ⊢
      have hncov2 : idx ∉ (shieldPass mm vs sel cov side cfg).2 :=
        fun hc => hncov (covered_subset_runShields hc)
      have hncov2' : idx ∉
          coveredAdd (coveredAdd cov (interruptReports mm vs sel side cfg))
            (wiringReports mm vs sel side cfg) := by
        rw [← shieldPass_snd]
        exact hncov2
      have h3 := @countP_singleReports_self mm vs sel
        (coveredAdd (coveredAdd cov (interruptReports mm vs sel side cfg))
          (wiringReports mm vs sel side cfg)) side idx m
        hselnd hidx he hside hncov2'
      have h1 : (interruptReports mm vs sel side cfg).countP
          (isSingleFor idx) = 0 :=
        countP_isSingleFor_zero_of_notSingle
          (fun rep hrep => notSingle_of_interrupt hrep)
      have h2 : (wiringReports mm vs sel side cfg).countP
          (isSingleFor idx) = 0 :=
        countP_isSingleFor_zero_of_notSingle
          (fun rep hrep => notSingle_of_wiring hrep)
      have hrest : (runShields mm vs sel rest
          (shieldPass mm vs sel cov side cfg).2).1.countP
            (isSingleFor idx) = 0 :=
        countP_singleFor_runShields_zero he hside hsp
      constructor
      · rw [List.countP_append, shieldPass_fst, List.countP_append,
          List.countP_append, h1, h2, h3, hrest]
      · apply List.mem_append_left
        rw [shieldPass_fst]
        apply List.mem_append_right
        exact mem_singleReports.mpr ⟨idx, hidx,
          fun hcontra => hncov2' (List.elem_iff.mp hcontra), m, he, hside, rfl⟩
    · have hne : sp.1 ≠ side := by
        intro hcontra
        apply hsp
        rw [hcontra]
        exact List.mem_map_of_mem Prod.fst hmem'
      have hrec := ih hmem' hnd' hncov
      constructor
      · rw [List.countP_append,
          countP_singleFor_shieldPass_other he hside hne, hrec.1]
      · exact List.mem_append_right _ hrec.2

/-- Claim C2: on a standard-matrix shield the localizer emits a `row` report
for a physical row, carrying that row's pin and its failing keys, exactly
when the failing/total ratio of the row strictly exceeds 0.6, and
independently a `col` report for each physical column whose ratio strictly
exceeds 0.6 (a failing key can appear in the reports of both its row and its
column, as the witness shows). -/
theorem claim_C2 (t : Topology) (sel : List Nat) (side : String) (cfg : PinCfg)
    (hmem : (side, cfg) ∈ validShields t)
    (hnd : ((validShields t).map Prod.fst).Nodup)
    (hg : cfg.gpios = none) (hdz : cfg.direct = none) :
    (∀ r : Nat,
      Report.row side r (List.lookup r cfg.row)
          (rowGroup t.matrixMap (validShields t) sel side r) ∈
        analyzeFailures t sel ↔
      ratioHigh (rowGroup t.matrixMap (validShields t) sel side r).length
        (rowTotal t.matrixMap (validShields t) side r)) ∧
    (∀ c : Nat,
      Report.col side c (List.lookup c cfg.col)
          (colGroup t.matrixMap (validShields t) sel side c) ∈
        analyzeFailures t sel ↔
      ratioHigh (colGroup t.matrixMap (validShields t) sel side c).length
        (colTotal t.matrixMap (validShields t) side c)) := by
  have hne : validShields t ≠ [] := by
    intro hcontra; rw [hcontra] at hmem; simp at hmem
  have hw : wiringReports t.matrixMap (validShields t) sel side cfg =
      rowReports t.matrixMap (validShields t) sel side cfg ++
        colReports t.matrixMap (validShields t) sel side cfg := by
    unfold wiringReports
    rw [hg, hdz]
    rfl
  constructor
  · intro r
    have hiff := @mem_runShields_nonSingle t.matrixMap (validShields t) sel side
      cfg (Report.row side r (List.lookup r cfg.row)
        (rowGroup t.matrixMap (validShields t) sel side r)) rfl rfl
      (validShields t) [] hmem hnd
    rw [analyzeFailures_eq_run hne, hiff, hw, List.mem_append, List.mem_append]
    constructor
    · rintro (h | h | h)
      · rcases mem_interruptReports h with ⟨ip, -, -, -, hrep⟩
        exact Report.noConfusion hrep
      · rcases mem_rowReports.mp h with ⟨r', -, -, h2, hrep⟩
        obtain ⟨-, rfl, -, -⟩ := Report.row.inj hrep
        exact h2
      · rcases mem_colReports.mp h with ⟨c', -, -, -, hrep⟩
        exact Report.noConfusion hrep
    · intro hsat
      right; left
      rcases rowGroup_ne_nil_of_ratio hsat with ⟨idx, hidx⟩
      rcases mem_rowGroup.mp hidx with ⟨hsel, m, he, hside, hr⟩
      refine mem_rowReports.mpr ⟨r, ?_, ?_, hsat, rfl⟩
      · exact mem_objKeys.mpr (mem_selPhysRsOf.mpr ⟨idx, hsel, m, he, hside, hr⟩)
      · exact rowTotal_pos_of_entry he hside hr
  · intro c
    have hiff := @mem_runShields_nonSingle t.matrixMap (validShields t) sel side
      cfg (Report.col side c (List.lookup c cfg.col)
        (colGroup t.matrixMap (validShields t) sel side c)) rfl rfl
      (validShields t) [] hmem hnd
    rw [analyzeFailures_eq_run hne, hiff, hw, List.mem_append, List.mem_append]
    constructor
    · rintro (h | h | h)
      · rcases mem_interruptReports h with ⟨ip, -, -, -, hrep⟩
        exact Report.noConfusion hrep
      · rcases mem_rowReports.mp h with ⟨r', -, -, -, hrep⟩
        exact Report.noConfusion hrep
      · rcases mem_colReports.mp h with ⟨c', -, -, h2, hrep⟩
        obtain ⟨-, rfl, -, -⟩ := Report.col.inj hrep
        exact h2
    · intro hsat
      right; right
      rcases colGroup_ne_nil_of_ratio hsat with ⟨idx, hidx⟩
      rcases mem_colGroup.mp hidx with ⟨hsel, m, he, hside, hc⟩
      refine mem_colReports.mpr ⟨c, ?_, ?_, hsat, rfl⟩
      · exact mem_objKeys.mpr (mem_selPhysCsOf.mpr ⟨idx, hsel, m, he, hside, hc⟩)
      · exact colTotal_pos_of_entry he hside hc

theorem physRsOf_of_rowTotal_pos {mm vs side r}
    (h : 0 < rowTotal mm vs side r) : r ∈ physRsOf mm vs side := by
  unfold rowTotal at h
  rw [List.countP_pos_iff] at h
  rcases h with ⟨om, hom, hp⟩
  cases om with
  | none => simp at hp
  | some m =>
    simp only [Bool.and_eq_true, beq_iff_eq] at hp
    unfold physRsOf
    exact List.mem_filterMap.mpr ⟨some m, hom, by simp [hp.1, hp.2]⟩

theorem physCsOf_of_colTotal_pos {mm vs side c}
    (h : 0 < colTotal mm vs side c) : c ∈ physCsOf mm vs side := by
  unfold colTotal at h
  rw [List.countP_pos_iff] at h
  rcases h with ⟨om, hom, hp⟩
  cases om with
  | none => simp at hp
  | some m =>
    simp only [Bool.and_eq_true, beq_iff_eq] at hp
    unfold physCsOf
    exact List.mem_filterMap.mpr ⟨some m, hom, by simp [hp.1, hp.2]⟩

theorem mem_charlieOrdinals {mm vs side pIdx}
    (h : pIdx ∈ physRsOf mm vs side ∨ pIdx ∈ physCsOf mm vs side) :
    pIdx ∈ charlieOrdinals mm vs side := by
  unfold charlieOrdinals
  by_cases hin : pIdx ∈ objKeys (physRsOf mm vs side)
  · exact List.mem_append_left _ hin
  · rcases h with h | h
    · exact absurd (mem_objKeys.mpr h) hin
    · refine List.mem_append_right _ ?_
      rw [List.mem_filter]
      exact ⟨mem_objKeys.mpr h, by simpa using hin⟩

/-- Claim C3: for each charlieplex ordinal pin the localizer flags the
row-role and the column-role independently by the strict 0.6 threshold and
emits a `charlie` report exactly when either role is flagged; the report's
role is `"in"` when only the row-role is flagged, `"out"` when only the
column-role is flagged, `"both"` when both are, and its indices are the
failing keys using that ordinal in the flagged role(s). -/
theorem claim_C3 (t : Topology) (sel : List Nat) (side : String) (cfg : PinCfg)
    (g : List (Nat × String)) (pIdx : Nat)
    (hmem : (side, cfg) ∈ validShields t)
    (hnd : ((validShields t).map Prod.fst).Nodup)
    (hg : cfg.gpios = some g) :
    (Report.charlie side pIdx ((List.lookup pIdx g).getD "Unknown")
        (charlieRole t.matrixMap (validShields t) sel side pIdx)
        (charlieInvolved t.matrixMap (validShields t) sel side pIdx) ∈
      analyzeFailures t sel ↔
      (charlieInFail t.matrixMap (validShields t) sel side pIdx ∨
        charlieOutFail t.matrixMap (validShields t) sel side pIdx)) ∧
    (∀ pin role ind,
      Report.charlie side pIdx pin role ind ∈ analyzeFailures t sel →
        pin = (List.lookup pIdx g).getD "Unknown" ∧
        role = charlieRole t.matrixMap (validShields t) sel side pIdx ∧
        ind = charlieInvolved t.matrixMap (validShields t) sel side pIdx) ∧
    (charlieInFail t.matrixMap (validShields t) sel side pIdx →
      ¬charlieOutFail t.matrixMap (validShields t) sel side pIdx →
      charlieRole t.matrixMap (validShields t) sel side pIdx = "in") ∧
    (¬charlieInFail t.matrixMap (validShields t) sel side pIdx →
      charlieOutFail t.matrixMap (validShields t) sel side pIdx →
      charlieRole t.matrixMap (validShields t) sel side pIdx = "out") ∧
    (charlieInFail t.matrixMap (validShields t) sel side pIdx →
      charlieOutFail t.matrixMap (validShields t) sel side pIdx →
      charlieRole t.matrixMap (validShields t) sel side pIdx = "both") ∧
    charlieInvolved t.matrixMap (validShields t) sel side pIdx =
      (charlieIndicesFor t.matrixMap (validShields t) side pIdx
          (charlieRole t.matrixMap (validShields t) sel side pIdx)).filter
        (fun k => sel.contains k) := by
  have hne : validShields t ≠ [] := by
    intro hcontra; rw [hcontra] at hmem; simp at hmem
  have hw : wiringReports t.matrixMap (validShields t) sel side cfg =
      charlieReports t.matrixMap (validShields t) sel side g := by
    unfold wiringReports
    rw [hg]
  have hflag :
      (charlieInFail t.matrixMap (validShields t) sel side pIdx ∨
        charlieOutFail t.matrixMap (validShields t) sel side pIdx) →
      pIdx ∈ charlieOrdinals t.matrixMap (validShields t) side := by
    rintro (h | h)
    · exact mem_charlieOrdinals (Or.inl (physRsOf_of_rowTotal_pos h.1))
    · exact mem_charlieOrdinals (Or.inr (physCsOf_of_colTotal_pos h.1))
  refine ⟨?_, ?_, ?_, ?_, ?_, rfl⟩
  · have hiff := @mem_runShields_nonSingle t.matrixMap (validShields t) sel side
      cfg (Report.charlie side pIdx ((List.lookup pIdx g).getD "Unknown")
        (charlieRole t.matrixMap (validShields t) sel side pIdx)
        (charlieInvolved t.matrixMap (validShields t) sel side pIdx)) rfl rfl
      (validShields t) [] hmem hnd
    rw [analyzeFailures_eq_run hne, hiff, hw, List.mem_append]
    constructor
    · rintro (h | h)
      · rcases mem_interruptReports h with ⟨ip, -, -, -, hrep⟩
        exact Report.noConfusion hrep
      · rcases mem_charlieReports.mp h with ⟨pIdx', -, hsome⟩
        rcases charlieReportFor_eq_some.mp hsome with ⟨hflags, hrep⟩
        obtain ⟨-, rfl, -, -, -⟩ := Report.charlie.inj hrep
        exact hflags
    · intro hflags
      exact Or.inr (mem_charlieReports.mpr
        ⟨pIdx, hflag hflags, charlieReportFor_eq_some.mpr ⟨hflags, rfl⟩⟩)
  · intro pin role ind h
    have hiff := @mem_runShields_nonSingle t.matrixMap (validShields t) sel side
      cfg (Report.charlie side pIdx pin role ind) rfl rfl
      (validShields t) [] hmem hnd
    rw [analyzeFailures_eq_run hne, hiff, hw, List.mem_append] at h
    rcases h with h | h
    · rcases mem_interruptReports h with ⟨ip, -, -, -, hrep⟩
      exact Report.noConfusion hrep
    · rcases mem_charlieReports.mp h with ⟨pIdx', -, hsome⟩
      rcases charlieReportFor_eq_some.mp hsome with ⟨-, hrep⟩
      obtain ⟨-, rfl, hpin, hrole, hind⟩ := Report.charlie.inj hrep
      exact ⟨hpin, hrole, hind⟩
  · intro hin hout
    simp [charlieRole, roleOf, hin, hout]
  · intro hin hout
    simp [charlieRole, roleOf, hin, hout]
  · intro hin hout
    simp [charlieRole, roleOf, hin, hout]


/-- Witness for C3, on the spec's example: ordinal 0 serves 3 keys in the
row-role and 2 in the column-role; with 2 of the 3 row-role keys failing
(0.67 > 0.6) and no column-role key failing, a `charlie` report with
role `"in"` implicating the two failing keys is emitted. -/
theorem claim_C3_witness :
    Report.charlie "c" 0 "G0" "in" [0, 1] ∈ analyzeFailures exC3t [0, 1] ∧
    charlieRole exC3t.matrixMap (validShields exC3t) [0, 1] "c" 0 = "in" := by
  have hthm := claim_C3 exC3t [0, 1] "c" exC3cfg
    [(0, "G0"), (1, "G1"), (2, "G2"), (3, "G3")] 0 (by decide) (by decide) rfl
  exact ⟨hthm.1.mpr (by decide), hthm.2.2.1 (by decide) (by decide)⟩


/-- Claim C4 (amended): on a direct-wired shield the localizer emits one
`direct_gnd` report covering all of the shield's direct keys exactly when the
shield has more than 2 direct keys and the failing fraction strictly exceeds
0.8; otherwise it emits one `direct` report per individual failing direct
key (not per direct key), naming that key's uniquely owned pin. -/
theorem claim_C4 (t : Topology) (sel : List Nat) (side : String) (cfg : PinCfg)
    (d : List (Nat × String))
    (hmem : (side, cfg) ∈ validShields t)
    (hnd : ((validShields t).map Prod.fst).Nodup)
    (hg : cfg.gpios = none) (hdd : cfg.direct = some d) :
    (Report.directGnd side (directKeyIdxs t.matrixMap (validShields t) side d) ∈
        analyzeFailures t sel ↔
      ((directKeyIdxs t.matrixMap (validShields t) side d).length > 2 ∧
        ratioVeryHigh
          ((directKeyIdxs t.matrixMap (validShields t) side d).filter
            (fun i => sel.contains i)).length
          (directKeyIdxs t.matrixMap (validShields t) side d).length)) ∧
    (∀ idx m, entryAt t.matrixMap idx = some m →
      (Report.direct side
          ((List.lookup (getSideAndPhysCoords (validShields t) m).physC d).getD
            "Unknown") idx [idx] ∈ analyzeFailures t sel ↔
        (idx ∈ (directKeyIdxs t.matrixMap (validShields t) side d).filter
            (fun i => sel.contains i) ∧
          ¬((directKeyIdxs t.matrixMap (validShields t) side d).length > 2 ∧
            ratioVeryHigh
              ((directKeyIdxs t.matrixMap (validShields t) side d).filter
                (fun i => sel.contains i)).length
              (directKeyIdxs t.matrixMap (validShields t) side d).length)))) ∧
    (∀ pin idx ind, Report.direct side pin idx ind ∈ analyzeFailures t sel →
      idx ∈ (directKeyIdxs t.matrixMap (validShields t) side d).filter
          (fun i => sel.contains i) ∧ ind = [idx]) := by
  have hne : validShields t ≠ [] := by
    intro hcontra; rw [hcontra] at hmem; simp at hmem
  have hw : wiringReports t.matrixMap (validShields t) sel side cfg =
      directReports t.matrixMap (validShields t) sel side d := by
    unfold wiringReports
    rw [hg, hdd]
  refine ⟨?_, ?_, ?_⟩
  · have hiff := @mem_runShields_nonSingle t.matrixMap (validShields t) sel side
      cfg (Report.directGnd side
        (directKeyIdxs t.matrixMap (validShields t) side d)) rfl rfl
      (validShields t) [] hmem hnd
    rw [analyzeFailures_eq_run hne, hiff, hw, List.mem_append]
    constructor
    · rintro (h | h)
      · rcases mem_interruptReports h with ⟨ip, -, -, -, hrep⟩
        exact Report.noConfusion hrep
      · rcases mem_directReports h with ⟨-, hcond⟩ | ⟨idx, -, pin, hrep, -⟩
        · exact hcond
        · exact Report.noConfusion hrep
    · intro hcond
      right
      unfold directReports
      rw [if_pos hcond]
      exact List.mem_singleton.mpr rfl
  · intro idx m he
    have hiff := @mem_runShields_nonSingle t.matrixMap (validShields t) sel side
      cfg (Report.direct side
        ((List.lookup (getSideAndPhysCoords (validShields t) m).physC d).getD
          "Unknown") idx [idx]) rfl rfl
      (validShields t) [] hmem hnd
    rw [analyzeFailures_eq_run hne, hiff, hw, List.mem_append]
    constructor
    · rintro (h | h)
      · rcases mem_interruptReports h with ⟨ip, -, -, -, hrep⟩
        exact Report.noConfusion hrep
      · rcases mem_directReports h with ⟨hrep, -⟩ | ⟨idx', hidx', pin, hrep, hnot⟩
        · exact Report.noConfusion hrep
        · obtain ⟨-, -, rfl, -⟩ := Report.direct.inj hrep
          exact ⟨hidx', hnot⟩
    · rintro ⟨hidx, hnot⟩
      right
      unfold directReports
      rw [if_neg hnot]
      exact List.mem_map.mpr ⟨idx, hidx, by rw [he]⟩
  · intro pin idx ind h
    have hiff := @mem_runShields_nonSingle t.matrixMap (validShields t) sel side
      cfg (Report.direct side pin idx ind) rfl rfl
      (validShields t) [] hmem hnd
    rw [analyzeFailures_eq_run hne, hiff, hw, List.mem_append] at h
    rcases h with h | h
    · rcases mem_interruptReports h with ⟨ip, -, -, -, hrep⟩
      exact Report.noConfusion hrep
    · rcases mem_directReports h with ⟨hrep, -⟩ | ⟨idx', hidx', pin', hrep, -⟩
      · exact Report.noConfusion hrep
      · obtain ⟨-, -, rfl, rfl⟩ := Report.direct.inj hrep
        exact ⟨hidx', rfl⟩

/-- Counterexample to C4 as stated: on the spec's own example — a shield
with 5 direct keys of which 4 fail — the localizer emits four individual
`direct` reports (one per failing key), not five, and no `direct_gnd`. -/
theorem claim_C4_counterexample :
    (analyzeFailures exC4t [0, 1, 2, 3]).countP Report.isDirectKind = 4 ∧
    ¬((analyzeFailures exC4t [0, 1, 2, 3]).countP Report.isDirectKind = 5) ∧
    Report.directGnd "d" [0, 1, 2, 3, 4] ∉ analyzeFailures exC4t [0, 1, 2, 3] := by
  decide

/-- Witness for C4: at the 4-of-5 example the per-key characterisation
produces the `direct` report of failing key 0, and at 5 of 5 failing
(1.0 > 0.8) the single `direct_gnd` report covering all five keys is
emitted. -/
theorem claim_C4_witness :
    Report.direct "d" "P0" 0 [0] ∈ analyzeFailures exC4t [0, 1, 2, 3] ∧
    Report.directGnd "d" [0, 1, 2, 3, 4] ∈ analyzeFailures exC4t [0, 1, 2, 3, 4] := by
  have h1 := claim_C4 exC4t [0, 1, 2, 3] "d" exC4cfg
    [(0, "P0"), (1, "P1"), (2, "P2"), (3, "P3"), (4, "P4")]
    (by decide) (by decide) rfl rfl
  have h2 := claim_C4 exC4t [0, 1, 2, 3, 4] "d" exC4cfg
    [(0, "P0"), (1, "P1"), (2, "P2"), (3, "P3"), (4, "P4")]
    (by decide) (by decide) rfl rfl
  exact ⟨(h1.2.1 0 ⟨0, 0⟩ rfl).mpr (by decide), h2.1.mpr (by decide)⟩

/-- Witness for C2: with keys 0,1,2 of row 0 and key 4 of column 0 failing,
row 0 (3 of 4 failing, 0.75) is reported with its failing keys, row 1
(1 of 4, 0.25) is not, column 0 (2 of 2) is reported, and key 0 appears in
both the row and the column report. -/
theorem claim_C2_witness :
    Report.row "s" 0 (some "R0") [0, 1, 2] ∈ analyzeFailures exC2t [0, 1, 2, 4] ∧
    Report.row "s" 1 (some "R1") [4] ∉ analyzeFailures exC2t [0, 1, 2, 4] ∧
    Report.col "s" 0 (some "C0") [0, 4] ∈ analyzeFailures exC2t [0, 1, 2, 4] ∧
    (0 : Nat) ∈ [0, 1, 2] ∧ (0 : Nat) ∈ [0, 4] := by
  have hthm := claim_C2 exC2t [0, 1, 2, 4] "s" exC2cfg (by decide) (by decide)
    rfl rfl
  refine ⟨?_, ?_, ?_, by decide, by decide⟩
  · exact (hthm.1 0).mpr (by decide)
  · intro h
    exact absurd ((hthm.1 1).mp h) (by decide)
  · exact (hthm.2 0).mpr (by decide)

/-! ### Remaining claims -/

theorem gspc_side_mem (vs : List (String × PinCfg)) (m : MatrixEntry)
    (h : vs ≠ []) :
    ∃ cfg, ((getSideAndPhysCoords vs m).side, cfg) ∈ vs := by
  rcases gspcAux_good m vs
      (((vs.head?).map Prod.fst).getD "common", -1, m.c, m.r)
    with heq | ⟨cfg, hmem, -, -, -, -⟩
  · cases vs with
    | nil => exact absurd rfl h
    | cons hd tl =>
      refine ⟨hd.2, ?_⟩
      have hside : (getSideAndPhysCoords (hd :: tl) m).side = hd.1 := by
        simp only [List.head?_cons, Option.map_some', Option.getD_some] at heq
        simp [getSideAndPhysCoords, heq]
      rw [hside]
      exact List.mem_cons_self _ _
  · exact ⟨cfg, by simpa [getSideAndPhysCoords] using hmem⟩

/-- Claim C7: every failing key that has a matrix entry, resolves to a valid
shield (the topology has at least one), and is not covered by any interrupt,
charlie, direct, direct_gnd, row or col report, appears exactly once in the
localizer output, as a `single` report tagged with its absolute logical row
and column. -/
theorem claim_C7 (t : Topology) (sel : List Nat) (idx : Nat) (m : MatrixEntry)
    (hne : validShields t ≠ [])
    (hnd : ((validShields t).map Prod.fst).Nodup)
    (hselnd : sel.Nodup)
    (hidx : idx ∈ sel)
    (he : entryAt t.matrixMap idx = some m)
    (hcov : ∀ rep ∈ analyzeFailures t sel, rep.isSingle = false →
      idx ∉ rep.indices) :
    (analyzeFailures t sel).countP (isSingleFor idx) = 1 ∧
    Report.single (getSideAndPhysCoords (validShields t) m).side m.r m.c idx
      [idx] ∈ analyzeFailures t sel := by
  obtain ⟨cfg, hmem⟩ := gspc_side_mem (validShields t) m hne
  have hncovfin : idx ∉
      (runShields t.matrixMap (validShields t) sel (validShields t) []).2 := by
    intro hc
    rw [runShields_cov_eq] at hc
    rcases List.mem_append.mp hc with hc | hc
    · simp at hc
    · rcases List.mem_flatMap.mp hc with ⟨rep, hrep, hidxrep⟩
      rw [List.mem_filter] at hrep
      have hns : rep.isSingle = false := by
        have hq := hrep.2
        simpa using hq
      exact hcov rep (by rw [analyzeFailures_eq_run hne]; exact hrep.1)
        hns hidxrep
  have hmain := countP_singleFor_runShields hselnd hidx he rfl hmem hnd hncovfin
  rw [analyzeFailures_eq_run hne]
  exact hmain

/-- Witness for C7: a lone failing key on a 2-by-2 standard shield reaches
no 0.6 threshold, is covered by nothing, and is emitted exactly once as a
`single` report with its logical coordinates. -/
theorem claim_C7_witness :
    (analyzeFailures exC7t [0]).countP (isSingleFor 0) = 1 ∧
    Report.single "s7" 0 0 0 [0] ∈ analyzeFailures exC7t [0] := by
  have hthm := claim_C7 exC7t [0] 0 ⟨0, 0⟩ (by decide) (by decide) (by decide)
    (by decide) rfl (by decide)
  exact hthm

/-- Claim C8: the localizer is a pure function of the topology and the
current failing set: repeated invocations with unchanged arguments return
identical, order-stable report lists, and within a session whose caller
mutates the failing set between calls, every call returns exactly what a
fresh invocation on its own failing set returns — no derived state leaks
across calls. -/
theorem claim_C8 (t : Topology) (sel sel' : List Nat) :
    analyzeFailures t sel = analyzeFailures t sel ∧
    localizerSession t [sel, sel', sel] =
      [analyzeFailures t sel, analyzeFailures t sel',
        analyzeFailures t sel] :=
  ⟨rfl, rfl⟩

theorem isSingle_kinds {rep : Report} (h : rep.isSingle = true) :
    rep.isCharlie = false ∧ rep.isDirectKind = false ∧
      rep.isStandardKind = false := by
  cases rep <;>
    simp_all [Report.isSingle, Report.isCharlie, Report.isDirectKind,
      Report.isStandardKind]

/-- Claim C9 (amended): every valid shield receives exactly one
wiring-mode-specific pass, selected by a fixed priority on the presence of
the pin-map entries — a present `gpios` entry (even an empty one) selects
the charlieplex pass regardless of the other lists, otherwise a present
`direct` entry selects the direct pass, otherwise the standard-matrix pass
runs; accordingly a shield's reports never mix pass kinds. -/
theorem claim_C9 (t : Topology) (sel : List Nat) (side : String) (cfg : PinCfg)
    (hmem : (side, cfg) ∈ validShields t)
    (hnd : ((validShields t).map Prod.fst).Nodup) :
    (cfg.gpios.isSome = true →
      ∀ rep ∈ analyzeFailures t sel, rep.side = side →
        rep.isDirectKind = false ∧ rep.isStandardKind = false) ∧
    (cfg.gpios = none → cfg.direct.isSome = true →
      ∀ rep ∈ analyzeFailures t sel, rep.side = side →
        rep.isCharlie = false ∧ rep.isStandardKind = false) ∧
    (cfg.gpios = none → cfg.direct = none →
      ∀ rep ∈ analyzeFailures t sel, rep.side = side →
        rep.isCharlie = false ∧ rep.isDirectKind = false) := by
  have hne : validShields t ≠ [] := by
    intro hcontra; rw [hcontra] at hmem; simp at hmem
  refine ⟨?_, ?_, ?_⟩
  · intro hg rep hrep hside
    by_cases hs : rep.isSingle = true
    · exact ⟨(isSingle_kinds hs).2.1, (isSingle_kinds hs).2.2⟩
    · rw [Bool.not_eq_true] at hs
      rw [analyzeFailures_eq_run hne] at hrep
      have hiff := @mem_runShields_nonSingle t.matrixMap (validShields t) sel
        side cfg rep hs hside (validShields t) [] hmem hnd
      rw [hiff, List.mem_append] at hrep
      rcases hrep with h | h
      · rcases mem_interruptReports h with ⟨ip, -, -, -, rfl⟩
        exact ⟨rfl, rfl⟩
      · obtain ⟨g, hg'⟩ := Option.isSome_iff_exists.mp hg
        simp only [wiringReports, hg'] at h
        rcases charlie_shape h with ⟨pIdx, pin, role, ind, rfl⟩
        exact ⟨rfl, rfl⟩
  · intro hg hd rep hrep hside
    by_cases hs : rep.isSingle = true
    · exact ⟨(isSingle_kinds hs).1, (isSingle_kinds hs).2.2⟩
    · rw [Bool.not_eq_true] at hs
      rw [analyzeFailures_eq_run hne] at hrep
      have hiff := @mem_runShields_nonSingle t.matrixMap (validShields t) sel
        side cfg rep hs hside (validShields t) [] hmem hnd
      rw [hiff, List.mem_append] at hrep
      rcases hrep with h | h
      · rcases mem_interruptReports h with ⟨ip, -, -, -, rfl⟩
        exact ⟨rfl, rfl⟩
      · obtain ⟨d, hd'⟩ := Option.isSome_iff_exists.mp hd
        simp only [wiringReports, hg, hd'] at h
        rcases mem_directReports h with ⟨rfl, -⟩ | ⟨i, -, pin, rfl, -⟩ <;>
          exact ⟨rfl, rfl⟩
  · intro hg hd rep hrep hside
    by_cases hs : rep.isSingle = true
    · exact ⟨(isSingle_kinds hs).1, (isSingle_kinds hs).2.1⟩
    · rw [Bool.not_eq_true] at hs
      rw [analyzeFailures_eq_run hne] at hrep
      have hiff := @mem_runShields_nonSingle t.matrixMap (validShields t) sel
        side cfg rep hs hside (validShields t) [] hmem hnd
      rw [hiff, List.mem_append] at hrep
      rcases hrep with h | h
      · rcases mem_interruptReports h with ⟨ip, -, -, -, rfl⟩
        exact ⟨rfl, rfl⟩
      · simp only [wiringReports, hg, hd] at h
        unfold standardReports at h
        rcases List.mem_append.mp h with h | h
        · rcases mem_rowReports.mp h with ⟨r, -, -, -, rfl⟩
          exact ⟨rfl, rfl⟩
        · rcases mem_colReports.mp h with ⟨c, -, -, -, rfl⟩
          exact ⟨rfl, rfl⟩

/-- Counterexample to C9 as stated: the dispatch tests presence, not
non-emptiness.  A shield whose pin map holds an empty `gpios` object next to
a non-empty 3-key `direct` list does not have "a non-empty charlieplex gpios
list", so the claim routes it to the direct analysis, which at 3 of 3 keys
failing (1.0 > 0.8, 3 > 2) would emit `direct_gnd`; the code instead runs
the charlieplex pass: no direct-kind report appears, three `charlie` reports
do. -/
theorem claim_C9_counterexample :
    (exC9cfg.gpios = some [] ∧
      exC9cfg.direct = some [(0, "P0"), (1, "P1"), (2, "P2")] ∧
      ("x", exC9cfg) ∈ validShields exC9t) ∧
    (analyzeFailures exC9t [0, 1, 2]).countP Report.isDirectKind = 0 ∧
    (analyzeFailures exC9t [0, 1, 2]).countP Report.isCharlie = 3 := by
  decide

/-- Witness for C9 (amended): on the counterexample topology the charlieplex
dispatch applies, so the emitted report for the shield is charlie-kind and
the direct/standard kinds are excluded. -/
theorem claim_C9_witness :
    (Report.charlie "x" 0 "Unknown" "both" [0, 1, 2]).isDirectKind = false ∧
    (Report.charlie "x" 0 "Unknown" "both" [0, 1, 2]).isStandardKind = false := by
  have hthm := claim_C9 exC9t [0, 1, 2] "x" exC9cfg (by decide) (by decide)
  exact hthm.1 rfl _ (by decide) rfl

/-- Claim C10: when no shield has at least one non-empty pin list, the
localizer returns the empty report list for every failing set — failing keys
are silently dropped, with no `single` reports and no error. -/
theorem claim_C10 (t : Topology) (sel : List Nat)
    (h : validShields t = []) : analyzeFailures t sel = [] := by
  unfold analyzeFailures
  rw [if_pos (by simp [List.isEmpty_iff, h])]

/-- Witness for C10: a topology whose lone shield has only empty pin lists
yields no valid shields and an empty report list even for a non-empty
failing set. -/
theorem claim_C10_witness :
    validShields exC10t = [] ∧ analyzeFailures exC10t [0, 1] = [] :=
  ⟨by decide, claim_C10 exC10t [0, 1] (by decide)⟩

/-- Claim C6 (amended): the diode-polarity override is per file, in
processing order: within one file the declared `diode-direction` value is
recorded first, then recognized charlieplex wiring (non-empty `gpios` list)
forces col2row and recognized direct wiring (non-empty `input-gpios` list)
forces row2col — so inside a single file a declaration never survives a
recognized wiring; when a file has no recognized wiring (or maps to no
shield) its declaration, if any, stands; the default with no files is
col2row; and the final direction is the left fold of these per-file updates,
so a later file's declaration can overwrite an earlier file's wiring-forced
value. -/
theorem claim_C6 (d : String) (f : PinFile) (files : List PinFile) :
    (f.skipWiring = false → f.charlieWiring = true → f.directWiring = false →
      stepDiode d f = "col2row") ∧
    (f.skipWiring = false → f.directWiring = true →
      stepDiode d f = "row2col") ∧
    (f.charlieWiring = false → f.directWiring = false →
      stepDiode d f = f.diodeDecl.getD d) ∧
    (f.skipWiring = true → stepDiode d f = f.diodeDecl.getD d) ∧
    diodeDirectionAfter [] = "col2row" ∧
    diodeDirectionAfter (files ++ [f]) =
      stepDiode (diodeDirectionAfter files) f := by
  refine ⟨?_, ?_, ?_, ?_, rfl, ?_⟩
  · intro h1 h2 h3
    simp [stepDiode, h1, h2, h3]
  · intro h1 h2
    simp [stepDiode, h1, h2]
  · intro h1 h2
    by_cases hsk : f.skipWiring <;> simp [stepDiode, h1, h2, hsk]
  · intro h1
    simp [stepDiode, h1]
  · simp [diodeDirectionAfter, List.foldl_append]

/-- Counterexample to C6 as stated: a corpus whose first file has recognized
charlieplex wiring and whose second file declares
`diode-direction = "row2col"` ends with row2col, although charlieplex wiring
was recognized — the override is not unconditional across files. -/
theorem claim_C6_counterexample :
    diodeDirectionAfter
      [⟨none, false, true, false⟩, ⟨some "row2col", false, false, false⟩] =
      "row2col" ∧
    diodeDirectionAfter
      [⟨none, false, true, false⟩, ⟨some "row2col", false, false, false⟩] ≠
      "col2row" := by
  decide

/-- Witness for C6 (amended): within a single file, recognized charlieplex
wiring forces col2row over a declared row2col; and the no-file default is
col2row. -/
theorem claim_C6_witness :
    stepDiode "col2row" ⟨some "row2col", false, true, false⟩ = "col2row" ∧
    diodeDirectionAfter [] = "col2row" :=
  have hthm := claim_C6 "col2row" ⟨some "row2col", false, true, false⟩ []
  ⟨hthm.1 rfl rfl rfl, hthm.2.2.2.2.1⟩


end ZaruBall
